import Mathlib

/-!
Lock manager of the deterministic two-phase-locking engine.

A shallow embedding of `src/txn/lock_manager.cc` (the shared/exclusive manager
`LockManagerB`, and the exclusive-only manager `LockManagerA`, whose methods are
placeholders in the source) together with the properties of its operations.

Conventions of the embedding.

* `Txn*` handles and `Key`s are natural numbers, compared by equality only.
* `lock_table_` (an `unordered_map<Key, deque<LockRequest>*>`) is an association
  list from keys to queues; a `deque<LockRequest>` is a `List LockRequest` whose
  head is `front()`.
* `txn_waits_` (an `unordered_map<Txn*, int>`) is a function into `Option Int`;
  `none` is an absent entry.  The `int` counters and `int orig_deque_size` are
  unbounded integers: a queue holds fewer than `2^31` requests.
* `ready_txns_` (a `deque<Txn*>*` owned by the caller) is a `List Txn`, appended
  at the end by `push_back`.
* An operation that can leave through `DIE`, or that runs into undefined
  behaviour of the C++ containers, returns an `Except Fault _`.
-/

set_option autoImplicit false

namespace LockMgr

/-- Modelled from the spec: the enumeration `LockMode` of the header
`txn/lock_manager.h`, which is absent from the sources; the spec lists its
three values. -/
inductive LockMode where
  | UNLOCKED
  | SHARED
  | EXCLUSIVE
  deriving DecidableEq, Repr

/-- Transaction handle (`Txn*`): an identity, compared by equality. -/
abbrev Txn := Nat

/-- Key of a data item. -/
abbrev Key := Nat

/-- Modelled from the spec: the struct `LockRequest` of the absent header, built
in the source as `LockRequest(mode, txn)` and read through `mode_` and `txn_`. -/
structure LockRequest where
  mode_ : LockMode
  txn_ : Txn
  deriving DecidableEq, Repr

/-- One key's queue, `deque<LockRequest>`, head first. -/
abbrev Queue := List LockRequest

/-- Modelled from the spec: the ways an operation leaves abnormally. `DIE` is
the macro of the absent utilities header, the fatal protocol-violation path
that halts the process; `UNDEFINED` stands for undefined behaviour of the C++
containers (dereferencing or erasing `end()`). -/
inductive Fault where
  | DIE
  | UNDEFINED
  deriving DecidableEq, Repr

/-- The lookup `lock_table_.count(key)` / `lock_table_[key]` on a present key. -/
def tableGet : List (Key × Queue) → Key → Option Queue
  | [], _ => none
  | (k', q) :: rest, k => if k' = k then some q else tableGet rest k

/-- Assignment to the queue stored under `key`, inserting the key when absent. -/
def tableSet : List (Key × Queue) → Key → Queue → List (Key × Queue)
  | [], k, q => [(k, q)]
  | (k', q') :: rest, k, q =>
    if k' = k then (k', q) :: rest else (k', q') :: tableSet rest k q

/-- State of a `LockManagerB`: the members `lock_table_`, `txn_waits_` and the
caller's deque behind `ready_txns_`. -/
structure LockManagerB where
  lock_table_ : List (Key × Queue)
  txn_waits_ : Txn → Option Int
  ready_txns_ : List Txn

/-- The constructor `LockManagerB::LockManagerB(ready_txns)`: empty maps, and the
ready deque handed in by the caller. -/
def LockManagerB.fresh (ready : List Txn) : LockManagerB :=
  { lock_table_ := [], txn_waits_ := fun _ => none, ready_txns_ := ready }

/-- The queue of `key`, empty when the key is absent from the table. -/
def LockManagerB.queue (s : LockManagerB) (key : Key) : Queue :=
  (tableGet s.lock_table_ key).getD []

/-- The wait count of a transaction, `0` when it has no ledger entry. -/
def LockManagerB.waitCount (s : LockManagerB) (t : Txn) : Int :=
  (s.txn_waits_ t).getD 0

/-- Lines 72-75 and 112-115: `if (txn_waits_.count(txn) == 0) txn_waits_[txn] = 1;
else txn_waits_[txn]++`. -/
def bumpWait (w : Txn → Option Int) (txn : Txn) : Txn → Option Int :=
  fun t =>
    if t = txn then
      match w txn with
      | none => some 1
      | some c => some (c + 1)
    else w t

/-- The call `txn_waits_.erase(txn)`. -/
def eraseWait (w : Txn → Option Int) (txn : Txn) : Txn → Option Int :=
  fun t => if t = txn then none else w t

/-- Lines 61-62 and 98-99: `if (lock_table_.count(key) == 0) lock_table_[key] =
new deque<LockRequest>()`. -/
def ensureQueue (tbl : List (Key × Queue)) (key : Key) : List (Key × Queue) :=
  match tableGet tbl key with
  | none => tableSet tbl key []
  | some _ => tbl

/-- The method `LockManagerB::WriteLock` (lines 43-79). -/
def WriteLock (s : LockManagerB) (txn : Txn) (key : Key) : Bool × LockManagerB :=
  let lr : LockRequest := ⟨LockMode.EXCLUSIVE, txn⟩
  let tbl := ensureQueue s.lock_table_ key
  let q := (tableGet tbl key).getD []
  let orig_deque_size := q.length
  let tbl' := tableSet tbl key (q ++ [lr])
  if orig_deque_size = 0 then
    (true, { s with lock_table_ := tbl' })
  else
    (false, { s with lock_table_ := tbl', txn_waits_ := bumpWait s.txn_waits_ txn })

/-- The scan of `LockManagerB::ReadLock` (lines 103-109): `true` when the loop
returns at an entry of `txn`, `false` when it breaks at an EXCLUSIVE entry or
runs off the end. -/
def readScan (txn : Txn) : Queue → Bool
  | [] => false
  | lr :: rest =>
    if lr.txn_ = txn then true
    else if lr.mode_ = LockMode.EXCLUSIVE then false
    else readScan txn rest

/-- The method `LockManagerB::ReadLock` (lines 81-118). -/
def ReadLock (s : LockManagerB) (txn : Txn) (key : Key) : Bool × LockManagerB :=
  let lr : LockRequest := ⟨LockMode.SHARED, txn⟩
  let tbl := ensureQueue s.lock_table_ key
  let q := (tableGet tbl key).getD []
  let q' := q ++ [lr]
  let tbl' := tableSet tbl key q'
  if readScan txn q' then
    (true, { s with lock_table_ := tbl' })
  else
    (false, { s with lock_table_ := tbl', txn_waits_ := bumpWait s.txn_waits_ txn })

/-- Lines 148-152: the position of the first entry of `txn`, or the length of
the queue (`end()`) when there is none. -/
def findTxn (txn : Txn) : Queue → Nat
  | [] => 0
  | lr :: rest => if lr.txn_ = txn then 0 else findTxn txn rest + 1

/-- Lines 155-165: the decision `pass_lock`, for the queue and the position `i`
of the entry to erase (a position inside the queue). -/
def passLock : Queue → Nat → Bool
  | _, _ + 1 => false
  | [], 0 => false
  | lr :: rest, 0 =>
    if lr.mode_ = LockMode.EXCLUSIVE then true
    else if lr.mode_ = LockMode.SHARED ∧ rest = [] then false
    else
      match rest with
      | [] => false
      | nxt :: _ =>
        if lr.mode_ = LockMode.SHARED ∧ nxt.mode_ = LockMode.EXCLUSIVE then true
        else false

/-- Lines 178-182 and 190-194: `txn_waits_[t]--` (an absent entry is created at
`0` by `operator[]`), then the move to `ready_txns_` when the count is `0`. -/
def grantOne (st : (Txn → Option Int) × List Txn) (t : Txn) :
    (Txn → Option Int) × List Txn :=
  let c : Int := (st.1 t).getD 0 - 1
  if c = 0 then (eraseWait st.1 t, st.2 ++ [t])
  else ((fun u => if u = t then some c else st.1 u), st.2)

/-- Lines 175-196: the loop that turns the lock over, run on the queue left
after the erase. -/
def turnOver (exclusive : Bool) :
    Queue → (Txn → Option Int) × List Txn → (Txn → Option Int) × List Txn
  | [], st => st
  | lr :: rest, st =>
    if lr.mode_ = LockMode.EXCLUSIVE ∧ exclusive = true then grantOne st lr.txn_
    else if lr.mode_ = LockMode.EXCLUSIVE then st
    else if lr.mode_ = LockMode.SHARED ∧ exclusive = true then st
    else if lr.mode_ = LockMode.SHARED ∧ exclusive = false then
      turnOver exclusive rest (grantOne st lr.txn_)
    else turnOver exclusive rest st

/-- Line 174: `locks->size() > 0 && locks->front().mode_ == EXCLUSIVE`
(the same expression stands on line 208). -/
def frontExclusive : Queue → Bool
  | [] => false
  | lr :: _ => decide (lr.mode_ = LockMode.EXCLUSIVE)

/-- The method `LockManagerB::Release` (lines 120-197). A key absent from the
table ends in `DIE`; a queue without an entry of `txn` leaves the search at
`end()`, which the code then dereferences or erases. -/
def Release (s : LockManagerB) (txn : Txn) (key : Key) : Except Fault LockManagerB :=
  match tableGet s.lock_table_ key with
  | none => Except.error Fault.DIE
  | some locks =>
    let i := findTxn txn locks
    if locks.length ≤ i then Except.error Fault.UNDEFINED
    else
      let pass_lock := passLock locks i
      let locks' := locks.eraseIdx i
      let tbl' := tableSet s.lock_table_ key locks'
      let w := eraseWait s.txn_waits_ txn
      if pass_lock = false then
        Except.ok { lock_table_ := tbl', txn_waits_ := w, ready_txns_ := s.ready_txns_ }
      else
        let st := turnOver (frontExclusive locks') locks' (w, s.ready_txns_)
        Except.ok { lock_table_ := tbl', txn_waits_ := st.1, ready_txns_ := st.2 }

/-- Lines 216-223: the loop of `Status` pushing the holders of the leading
SHARED entries. -/
def statusLoop : Queue → List Txn → List Txn
  | [], owners => owners
  | lr :: rest, owners =>
    if lr.mode_ = LockMode.SHARED then statusLoop rest (owners ++ [lr.txn_])
    else owners

/-- The method `LockManagerB::Status` (lines 199-226): the returned mode, the
vector `owners` after the call, and the manager (which it does not touch). -/
def Status (s : LockManagerB) (key : Key) (owners : List Txn) :
    Except Fault (LockMode × List Txn × LockManagerB) :=
  match tableGet s.lock_table_ key with
  | none => Except.error Fault.DIE
  | some locks =>
    match locks with
    | [] => Except.ok (LockMode.UNLOCKED, owners, s)
    | front :: _ =>
      if frontExclusive locks = true then
        Except.ok (LockMode.EXCLUSIVE, owners ++ [front.txn_], s)
      else
        Except.ok (LockMode.SHARED, statusLoop locks owners, s)

/-! ## Drivers: sequences of calls -/

/-- One call of a state-changing operation of the manager. -/
inductive Op where
  | readLock (txn : Txn) (key : Key)
  | writeLock (txn : Txn) (key : Key)
  | release (txn : Txn) (key : Key)
  deriving DecidableEq, Repr

/-- The manager after one call; the answer of a lock request is dropped. -/
def step (s : LockManagerB) : Op → Except Fault LockManagerB
  | Op.readLock t k => Except.ok (ReadLock s t k).2
  | Op.writeLock t k => Except.ok (WriteLock s t k).2
  | Op.release t k => Release s t k

/-- The manager after a sequence of calls, stopping at the first fault. -/
def run : LockManagerB → List Op → Except Fault LockManagerB
  | s, [] => Except.ok s
  | s, op :: ops =>
    match step s op with
    | Except.ok s' => run s' ops
    | Except.error e => Except.error e

/-- The function `WriteLock(t, key)` called for each `t` of a list in order: the
answers, and the manager at the end. -/
def lockAll (s : LockManagerB) (key : Key) : List Txn → List Bool × LockManagerB
  | [] => ([], s)
  | t :: ts =>
    let r := WriteLock s t key
    let rs := lockAll r.2 key ts
    (r.1 :: rs.1, rs.2)

/-! ## The granted part of a queue -/

/-- The predicate of lines 217 and 188, `mode_ == SHARED`, as a test on
requests. -/
def isShared (lr : LockRequest) : Bool := decide (lr.mode_ = LockMode.SHARED)

/-- Length of the granted part of a queue: `1` for an EXCLUSIVE head, otherwise
the length of the maximal run of SHARED entries from index `0`. -/
def grantedLen : Queue → Nat
  | [] => 0
  | lr :: rest =>
    if lr.mode_ = LockMode.EXCLUSIVE then 1
    else ((lr :: rest).takeWhile isShared).length

/-- Number of entries of `t` in a queue that lie strictly behind its granted
part. -/
def behind (t : Txn) (q : Queue) : Nat :=
  (q.drop (grantedLen q)).countP (fun x => decide (x.txn_ = t))

/-- The entries of `t` behind the granted part, summed over the keys of the
table. -/
def totalBehind (t : Txn) (tbl : List (Key × Queue)) : Nat :=
  (tbl.map (fun p => behind t p.2)).sum

/-- The transactions that `Status(key)` reports as owners, for an `owners` vector
that is empty at the call; no owner when `Status` ends in `DIE`. -/
def holders (s : LockManagerB) (key : Key) : List Txn :=
  match Status s key [] with
  | Except.ok r => r.2.1
  | Except.error _ => []

/-- No request of the table carries the mode UNLOCKED. -/
def NoUnlocked (s : LockManagerB) : Prop :=
  ∀ k, ∀ x ∈ s.queue k, x.mode_ ≠ LockMode.UNLOCKED

/-! ## Reachable states -/

/-- The states reached from a fresh manager by any sequence of `ReadLock`,
`WriteLock` and `Release` calls in which every `Release` names a transaction
that has an entry in the queue of the key. -/
inductive Reachable : LockManagerB → Prop where
  | fresh (ready : List Txn) : Reachable (LockManagerB.fresh ready)
  | readLock (s : LockManagerB) (t : Txn) (k : Key) :
      Reachable s → Reachable (ReadLock s t k).2
  | writeLock (s : LockManagerB) (t : Txn) (k : Key) :
      Reachable s → Reachable (WriteLock s t k).2
  | release (s s' : LockManagerB) (t : Txn) (k : Key) :
      Reachable s → (∃ lr ∈ s.queue k, lr.txn_ = t) →
      Release s t k = Except.ok s' → Reachable s'

/-- The states reached from a fresh manager when, in addition, a `ReadLock` is
only made by a transaction with no request in the queue of the key yet, and a
`Release` only by a transaction whose wait count is zero. -/
inductive ReachableHeld : LockManagerB → Prop where
  | fresh (ready : List Txn) : ReachableHeld (LockManagerB.fresh ready)
  | readLock (s : LockManagerB) (t : Txn) (k : Key) :
      ReachableHeld s → (∀ lr ∈ s.queue k, lr.txn_ ≠ t) →
      ReachableHeld (ReadLock s t k).2
  | writeLock (s : LockManagerB) (t : Txn) (k : Key) :
      ReachableHeld s → ReachableHeld (WriteLock s t k).2
  | release (s s' : LockManagerB) (t : Txn) (k : Key) :
      ReachableHeld s → (∃ lr ∈ s.queue k, lr.txn_ = t) → s.waitCount t = 0 →
      Release s t k = Except.ok s' → ReachableHeld s'

/-- The states reached from a fresh manager under disciplined use: a lock
request `ReadLock(t, k)` or `WriteLock(t, k)` is only made while `t` has no
request in the queue of `k`, and `Release(t, k)` only while `t` has a request in
the queue of `k` and no ledger entry. -/
inductive Disciplined : LockManagerB → Prop where
  | fresh (ready : List Txn) : Disciplined (LockManagerB.fresh ready)
  | readLock (s : LockManagerB) (t : Txn) (k : Key) :
      Disciplined s → (∀ lr ∈ s.queue k, lr.txn_ ≠ t) →
      Disciplined (ReadLock s t k).2
  | writeLock (s : LockManagerB) (t : Txn) (k : Key) :
      Disciplined s → (∀ lr ∈ s.queue k, lr.txn_ ≠ t) →
      Disciplined (WriteLock s t k).2
  | release (s s' : LockManagerB) (t : Txn) (k : Key) :
      Disciplined s → (∃ lr ∈ s.queue k, lr.txn_ = t) → s.txn_waits_ t = none →
      Release s t k = Except.ok s' → Disciplined s'

/-! ## The exclusive-only manager `LockManagerA` -/

/-- State of a `LockManagerA`: the same three members as `LockManagerB`. -/
structure LockManagerA where
  lock_table_ : List (Key × Queue)
  txn_waits_ : Txn → Option Int
  ready_txns_ : List Txn

/-- The constructor `LockManagerA::LockManagerA(ready_txns)` (lines 9-11). -/
def LockManagerA.fresh (ready : List Txn) : LockManagerA :=
  { lock_table_ := [], txn_waits_ := fun _ => none, ready_txns_ := ready }

/-- The method `LockManagerA::WriteLock` (lines 13-18): its body is the
placeholder `return true`. -/
def LockManagerA.WriteLock (s : LockManagerA) (_txn : Txn) (_key : Key) :
    Bool × LockManagerA :=
  (true, s)

/-- The method `LockManagerA::ReadLock` (lines 20-24): `return WriteLock(txn,
key)`. -/
def LockManagerA.ReadLock (s : LockManagerA) (txn : Txn) (key : Key) :
    Bool × LockManagerA :=
  LockManagerA.WriteLock s txn key

/-- The method `LockManagerA::Release` (lines 26-30): an empty body. -/
def LockManagerA.Release (s : LockManagerA) (_txn : Txn) (_key : Key) :
    Except Fault LockManagerA :=
  Except.ok s

/-- The method `LockManagerA::Status` (lines 32-37): its body is the
placeholder `return UNLOCKED`; `owners` is not written. -/
def LockManagerA.Status (s : LockManagerA) (_key : Key) (owners : List Txn) :
    Except Fault (LockMode × List Txn × LockManagerA) :=
  Except.ok (LockMode.UNLOCKED, owners, s)

end LockMgr

namespace LockMgr

open LockMode

/-! ## The lock table -/

theorem tableGet_tableSet (tbl : List (Key × Queue)) (k k' : Key) (q : Queue) :
    tableGet (tableSet tbl k q) k' = if k' = k then some q else tableGet tbl k' := by
  induction tbl with
  | nil =>
    by_cases h : k' = k
    · simp [tableSet, tableGet, h]
    · have h' : ¬ k = k' := fun e => h e.symm
      simp [tableSet, tableGet, h, h']
  | cons p rest ih =>
    obtain ⟨k0, q0⟩ := p
    by_cases h0 : k0 = k
    · subst h0
      by_cases h : k' = k0
      · subst h; simp [tableSet, tableGet]
      · have h' : ¬ k0 = k' := fun e => h e.symm
        simp [tableSet, tableGet, h, h']
    · by_cases h1 : k0 = k'
      · subst h1
        simp [tableSet, tableGet, h0]
      · simp [tableSet, tableGet, h0, h1, ih]

theorem tableGet_ensureQueue (tbl : List (Key × Queue)) (k k' : Key) :
    tableGet (ensureQueue tbl k) k' =
      if k' = k then some ((tableGet tbl k).getD []) else tableGet tbl k' := by
  unfold ensureQueue
  cases h : tableGet tbl k with
  | none => simp [tableGet_tableSet]
  | some q =>
    by_cases hk : k' = k
    · subst hk; simp [h]
    · simp [hk]

theorem WriteLock_table (s : LockManagerB) (txn : Txn) (key k : Key) :
    tableGet (WriteLock s txn key).2.lock_table_ k =
      if k = key then some (s.queue key ++ [⟨EXCLUSIVE, txn⟩])
      else tableGet s.lock_table_ k := by
  unfold WriteLock
  simp only []
  split <;>
  · simp only [tableGet_tableSet, tableGet_ensureQueue, LockManagerB.queue]
    by_cases hk : k = key <;> simp [hk]

theorem ReadLock_table (s : LockManagerB) (txn : Txn) (key k : Key) :
    tableGet (ReadLock s txn key).2.lock_table_ k =
      if k = key then some (s.queue key ++ [⟨SHARED, txn⟩])
      else tableGet s.lock_table_ k := by
  unfold ReadLock
  simp only []
  split <;>
  · simp only [tableGet_tableSet, tableGet_ensureQueue, LockManagerB.queue]
    by_cases hk : k = key <;> simp [hk]

theorem WriteLock_fst (s : LockManagerB) (txn : Txn) (key : Key) :
    (WriteLock s txn key).1 = decide (s.queue key = []) := by
  unfold WriteLock
  simp only [tableGet_ensureQueue, if_true, Option.getD_some]
  cases h : s.queue key with
  | nil => simp [LockManagerB.queue] at h; simp [h]
  | cons a l => simp [LockManagerB.queue] at h; simp [h]

theorem bumpWait_self (w : Txn → Option Int) (txn : Txn) :
    bumpWait w txn txn = some ((w txn).getD 0 + 1) := by
  unfold bumpWait
  cases h : w txn <;> simp

theorem bumpWait_other (w : Txn → Option Int) (txn t : Txn) (h : t ≠ txn) :
    bumpWait w txn t = w t := by
  simp [bumpWait, h]

theorem WriteLock_waits (s : LockManagerB) (txn : Txn) (key : Key) :
    (WriteLock s txn key).2.txn_waits_ =
      if (WriteLock s txn key).1 = true then s.txn_waits_ else bumpWait s.txn_waits_ txn := by
  unfold WriteLock
  simp only []
  split <;> simp

theorem WriteLock_ready (s : LockManagerB) (txn : Txn) (key : Key) :
    (WriteLock s txn key).2.ready_txns_ = s.ready_txns_ := by
  unfold WriteLock
  simp only []
  split <;> rfl

theorem ReadLock_fst (s : LockManagerB) (txn : Txn) (key : Key) :
    (ReadLock s txn key).1 = readScan txn (s.queue key ++ [⟨SHARED, txn⟩]) := by
  unfold ReadLock
  simp only [tableGet_ensureQueue, if_true, Option.getD_some, LockManagerB.queue]
  split <;> simp_all

theorem ReadLock_waits (s : LockManagerB) (txn : Txn) (key : Key) :
    (ReadLock s txn key).2.txn_waits_ =
      if (ReadLock s txn key).1 = true then s.txn_waits_ else bumpWait s.txn_waits_ txn := by
  unfold ReadLock
  simp only []
  split <;> simp

theorem ReadLock_ready (s : LockManagerB) (txn : Txn) (key : Key) :
    (ReadLock s txn key).2.ready_txns_ = s.ready_txns_ := by
  unfold ReadLock
  simp only []
  split <;> rfl

/-- The scan answers `true` exactly when no EXCLUSIVE entry stands ahead of
the first entry of `txn`, and there is such an entry. -/
theorem readScan_iff (txn : Txn) (q : Queue) :
    readScan txn q = true ↔
      findTxn txn q < q.length ∧
        ∀ lr ∈ q.take (findTxn txn q), lr.mode_ ≠ EXCLUSIVE := by
  induction q with
  | nil => simp [readScan, findTxn]
  | cons lr rest ih =>
    by_cases h : lr.txn_ = txn
    · simp [readScan, findTxn, h]
    · by_cases hm : lr.mode_ = EXCLUSIVE
      · simp [readScan, findTxn, h, hm]
      · simp [readScan, findTxn, h, hm, ih]

theorem findTxn_le (txn : Txn) (q : Queue) : findTxn txn q ≤ q.length := by
  induction q with
  | nil => simp [findTxn]
  | cons lr rest ih =>
    by_cases h : lr.txn_ = txn
    · simp [findTxn, h]
    · simp [findTxn, h, ih]

theorem findTxn_lt_iff (txn : Txn) (q : Queue) :
    findTxn txn q < q.length ↔ ∃ lr ∈ q, lr.txn_ = txn := by
  induction q with
  | nil => simp [findTxn]
  | cons lr rest ih =>
    by_cases h : lr.txn_ = txn
    · simp [findTxn, h]
    · simp [findTxn, h, ih]

theorem findTxn_append_absent (txn : Txn) (q : Queue) (m : LockMode)
    (h : ∀ lr ∈ q, lr.txn_ ≠ txn) :
    findTxn txn (q ++ [⟨m, txn⟩]) = q.length := by
  induction q with
  | nil => simp [findTxn]
  | cons lr rest ih =>
    have h1 : lr.txn_ ≠ txn := h lr (List.mem_cons_self _ _)
    have h2 : ∀ x ∈ rest, x.txn_ ≠ txn := fun x hx => h x (List.mem_cons_of_mem _ hx)
    simp [findTxn, h1, ih h2]

theorem findTxn_append_lt (txn : Txn) (q : Queue) (m : LockMode) :
    findTxn txn (q ++ [LockRequest.mk m txn]) < (q ++ [LockRequest.mk m txn]).length := by
  rw [findTxn_lt_iff]
  exact ⟨LockRequest.mk m txn, by simp, rfl⟩

/-! ## The ledger -/

theorem eraseWait_apply (w : Txn → Option Int) (t u : Txn) :
    eraseWait w t u = if u = t then none else w u := rfl

theorem grantOne_waits (st : (Txn → Option Int) × List Txn) (t u : Txn) :
    (grantOne st t).1 u =
      if u = t then
        (if (st.1 t).getD 0 - 1 = 0 then none else some ((st.1 t).getD 0 - 1))
      else st.1 u := by
  unfold grantOne
  by_cases hz : (st.1 t).getD 0 - 1 = 0
  · simp [hz, eraseWait_apply]
  · simp [hz]

theorem grantOne_ready (st : (Txn → Option Int) × List Txn) (t : Txn) :
    (grantOne st t).2 = if (st.1 t).getD 0 - 1 = 0 then st.2 ++ [t] else st.2 := by
  unfold grantOne
  by_cases hz : (st.1 t).getD 0 - 1 = 0
  · simp [hz]
  · simp [hz]

/-- In terms of wait counts a grant lowers the count of its transaction by one
and touches no other. -/
theorem grantOne_count (st : (Txn → Option Int) × List Txn) (t u : Txn) :
    ((grantOne st t).1 u).getD 0 = (st.1 u).getD 0 - (if u = t then 1 else 0) := by
  rw [grantOne_waits]
  by_cases hu : u = t
  · subst hu
    by_cases hz : (st.1 u).getD 0 - 1 = 0
    · simp [hz]
    · simp [hz]
  · simp [hu]

/-! ## Release, unfolded -/

/-- A release that names an entry of the queue returns normally; the table gets
the queue without the first entry of `txn`, and ledger and ready deque are those
of the erase followed, when `pass_lock` holds, by the turn-over loop. -/
theorem Release_ok (s : LockManagerB) (txn : Txn) (key : Key) (locks : Queue)
    (hq : tableGet s.lock_table_ key = some locks)
    (hi : findTxn txn locks < locks.length) :
    ∃ s', Release s txn key = Except.ok s' ∧
      s'.lock_table_ = tableSet s.lock_table_ key (locks.eraseIdx (findTxn txn locks)) ∧
      (s'.txn_waits_, s'.ready_txns_) =
        if passLock locks (findTxn txn locks) = true then
          turnOver (frontExclusive (locks.eraseIdx (findTxn txn locks)))
            (locks.eraseIdx (findTxn txn locks)) (eraseWait s.txn_waits_ txn, s.ready_txns_)
        else (eraseWait s.txn_waits_ txn, s.ready_txns_) := by
  unfold Release
  simp only [hq]
  have hi' : ¬ locks.length ≤ findTxn txn locks := Nat.not_le.mpr hi
  simp only [hi', if_false]
  by_cases hp : passLock locks (findTxn txn locks) = true
  · simp [hp]
  · simp [hp]

theorem Release_ok_inv (s s' : LockManagerB) (txn : Txn) (key : Key)
    (h : Release s txn key = Except.ok s') :
    ∃ locks, tableGet s.lock_table_ key = some locks ∧
      findTxn txn locks < locks.length := by
  unfold Release at h
  cases hq : tableGet s.lock_table_ key with
  | none => simp [hq] at h
  | some locks =>
    refine ⟨locks, rfl, ?_⟩
    by_contra hlt
    have hle : locks.length ≤ findTxn txn locks := Nat.le_of_not_lt hlt
    simp [hq, hle] at h

theorem Release_table (s s' : LockManagerB) (txn : Txn) (key k : Key)
    (h : Release s txn key = Except.ok s') :
    tableGet s'.lock_table_ k =
      if k = key then some ((s.queue key).eraseIdx (findTxn txn (s.queue key)))
      else tableGet s.lock_table_ k := by
  obtain ⟨locks, hq, hi⟩ := Release_ok_inv s s' txn key h
  obtain ⟨s2, h2, ht, _⟩ := Release_ok s txn key locks hq hi
  rw [h] at h2
  cases h2
  rw [ht, tableGet_tableSet]
  simp [LockManagerB.queue, hq]

/-! ## Lock requests -/

/-- C2: `WriteLock(txn, key)` appends an EXCLUSIVE request of `txn` at the tail
of the queue of `key` (created when the key is absent) and answers `true`
exactly when that queue was empty or absent before the call; on `false` the
wait count of `txn` grows by exactly one (it is created at `1` when absent) and
no other ledger entry changes, on `true` the ledger is unchanged. -/
theorem C2_writeLock_grant_iff_empty (s : LockManagerB) (txn : Txn) (key : Key) :
    tableGet (WriteLock s txn key).2.lock_table_ key
        = some (s.queue key ++ [LockRequest.mk EXCLUSIVE txn]) ∧
    ((WriteLock s txn key).1 = true ↔
        (tableGet s.lock_table_ key = none ∨ tableGet s.lock_table_ key = some [])) ∧
    ((WriteLock s txn key).1 = false →
        (WriteLock s txn key).2.txn_waits_ txn = some (s.waitCount txn + 1) ∧
        (s.txn_waits_ txn = none → (WriteLock s txn key).2.txn_waits_ txn = some 1) ∧
        ∀ t, t ≠ txn → (WriteLock s txn key).2.txn_waits_ t = s.txn_waits_ t) ∧
    ((WriteLock s txn key).1 = true →
        (WriteLock s txn key).2.txn_waits_ = s.txn_waits_) := by
  refine ⟨?_, ?_, ?_, ?_⟩
  · simp [WriteLock_table]
  · rw [WriteLock_fst]
    unfold LockManagerB.queue
    cases h : tableGet s.lock_table_ key <;> simp
  · intro hf
    rw [WriteLock_waits]
    simp only [hf, Bool.false_eq_true, if_false]
    refine ⟨?_, ?_, ?_⟩
    · simp [bumpWait_self, LockManagerB.waitCount]
    · intro hn; simp [bumpWait_self, hn]
    · intro t ht; exact bumpWait_other _ _ _ ht
  · intro ht
    rw [WriteLock_waits]
    simp [ht]

/-- C3, what fails: after `WriteLock(1, 0)` on a fresh manager the queue of key
`0` holds an EXCLUSIVE entry, and yet `ReadLock(1, 0)` answers `true` and leaves
the wait count of `1` at zero: the scan stops at the earlier entry of the same
transaction. -/
theorem C3_readLock_counterexample :
    ¬ ((ReadLock (WriteLock (LockManagerB.fresh []) 1 0).2 1 0).1 = true ↔
        ∀ lr ∈ (WriteLock (LockManagerB.fresh []) 1 0).2.queue 0,
          lr.mode_ ≠ EXCLUSIVE) := by
  decide

/-- C3, amended: `ReadLock(txn, key)` appends a SHARED request of `txn` at the
tail of the queue of `key` and answers `true` exactly when no EXCLUSIVE request
stands ahead of the first request of `txn` in the queue after the append; that
first request is the new one when `txn` had none in the queue, and then the
answer is `true` exactly when the queue before the call held no EXCLUSIVE
entry. On `false` the wait count of `txn` grows by exactly one and no other
ledger entry changes. -/
theorem C3_readLock_grant_iff (s : LockManagerB) (txn : Txn) (key : Key) :
    tableGet (ReadLock s txn key).2.lock_table_ key
        = some (s.queue key ++ [LockRequest.mk SHARED txn]) ∧
    ((ReadLock s txn key).1 = true ↔
        ∀ lr ∈ (s.queue key ++ [LockRequest.mk SHARED txn]).take
            (findTxn txn (s.queue key ++ [LockRequest.mk SHARED txn])),
          lr.mode_ ≠ EXCLUSIVE) ∧
    ((∀ lr ∈ s.queue key, lr.txn_ ≠ txn) →
        ((ReadLock s txn key).1 = true ↔ ∀ lr ∈ s.queue key, lr.mode_ ≠ EXCLUSIVE)) ∧
    ((ReadLock s txn key).1 = false →
        (ReadLock s txn key).2.txn_waits_ txn = some (s.waitCount txn + 1) ∧
        ∀ t, t ≠ txn → (ReadLock s txn key).2.txn_waits_ t = s.txn_waits_ t) := by
  have hiff : (ReadLock s txn key).1 = true ↔
        ∀ lr ∈ (s.queue key ++ [LockRequest.mk SHARED txn]).take
            (findTxn txn (s.queue key ++ [LockRequest.mk SHARED txn])),
          lr.mode_ ≠ EXCLUSIVE := by
    rw [ReadLock_fst, readScan_iff]
    exact ⟨fun h => h.2, fun h => ⟨findTxn_append_lt _ _ _, h⟩⟩
  refine ⟨?_, hiff, ?_, ?_⟩
  · simp [ReadLock_table]
  · intro habs
    rw [hiff, findTxn_append_absent txn _ SHARED habs]
    simp
  · intro hf
    rw [ReadLock_waits]
    simp only [hf, Bool.false_eq_true, if_false]
    exact ⟨by simp [bumpWait_self, LockManagerB.waitCount],
      fun t ht => bumpWait_other _ _ _ ht⟩

/-- C3, the amended statement at a concrete manager: behind the EXCLUSIVE
request of `1`, a first request of `2` is refused and counted. -/
theorem C3_readLock_grant_iff_witness :
    (ReadLock (WriteLock (LockManagerB.fresh []) 1 0).2 2 0).1 = false ∧
    (ReadLock (WriteLock (LockManagerB.fresh []) 1 0).2 2 0).2.txn_waits_ 2 = some 1 := by
  have h := C3_readLock_grant_iff (WriteLock (LockManagerB.fresh []) 1 0).2 2 0
  have hf : (ReadLock (WriteLock (LockManagerB.fresh []) 1 0).2 2 0).1 = false := by decide
  exact ⟨hf, by simpa [LockManagerB.waitCount, WriteLock, LockManagerB.fresh] using (h.2.2.2 hf).1⟩

/-- C8: when every request in the queue of `key` is SHARED (or the queue is
empty or absent), `ReadLock(txn, key)` answers `true` at once and leaves the
wait-count ledger and the ready deque unchanged. -/
theorem C8_shared_concurrency (s : LockManagerB) (txn : Txn) (key : Key)
    (hall : ∀ lr ∈ s.queue key, lr.mode_ = SHARED) :
    (ReadLock s txn key).1 = true ∧
    (ReadLock s txn key).2.txn_waits_ = s.txn_waits_ ∧
    (ReadLock s txn key).2.ready_txns_ = s.ready_txns_ := by
  have ht : (ReadLock s txn key).1 = true := by
    rw [ReadLock_fst, readScan_iff]
    refine ⟨findTxn_append_lt _ _ _, ?_⟩
    intro lr hlr
    have hmem := List.mem_of_mem_take hlr
    rcases List.mem_append.mp hmem with h | h
    · rw [hall lr h]; decide
    · rw [List.mem_singleton.mp h]; simp
  refine ⟨ht, ?_, ReadLock_ready s txn key⟩
  rw [ReadLock_waits]
  simp [ht]

/-- C8 at a concrete manager: a second SHARED request on a key held SHARED is
granted without any release. -/
theorem C8_shared_concurrency_witness :
    (∀ lr ∈ (ReadLock (LockManagerB.fresh []) 1 0).2.queue 0, lr.mode_ = SHARED) ∧
    (ReadLock (ReadLock (LockManagerB.fresh []) 1 0).2 2 0).1 = true :=
  ⟨by decide,
    (C8_shared_concurrency (ReadLock (LockManagerB.fresh []) 1 0).2 2 0 (by decide)).1⟩

theorem step_keeps_head (s s' : LockManagerB) (op : Op) (t1 : Txn) (key : Key)
    (rest : Queue) (hop : op ≠ Op.release t1 key)
    (hq : tableGet s.lock_table_ key = some (LockRequest.mk EXCLUSIVE t1 :: rest))
    (hs : step s op = Except.ok s') :
    ∃ rest', tableGet s'.lock_table_ key = some (LockRequest.mk EXCLUSIVE t1 :: rest') := by
  have hqueue : s.queue key = LockRequest.mk EXCLUSIVE t1 :: rest := by
    simp [LockManagerB.queue, hq]
  cases op with
  | readLock t k =>
    simp only [step, Except.ok.injEq] at hs
    subst hs
    rw [ReadLock_table]
    by_cases hk : key = k
    · subst hk; simp [hqueue]
    · simp [hk, hq]
  | writeLock t k =>
    simp only [step, Except.ok.injEq] at hs
    subst hs
    rw [WriteLock_table]
    by_cases hk : key = k
    · subst hk; simp [hqueue]
    · simp [hk, hq]
  | release t k =>
    simp only [step] at hs
    rw [Release_table s s' t k key hs]
    by_cases hk : key = k
    · subst hk
      have ht : t ≠ t1 := by
        intro e; subst e; exact hop rfl
      have ht' : ¬ t1 = t := fun e => ht e.symm
      simp [hqueue, findTxn, ht']
    · simp [hk, hq]

theorem run_keeps_head (ops : List Op) (s s' : LockManagerB) (t1 : Txn) (key : Key)
    (rest : Queue) (hops : ∀ op ∈ ops, op ≠ Op.release t1 key)
    (hq : tableGet s.lock_table_ key = some (LockRequest.mk EXCLUSIVE t1 :: rest))
    (hr : run s ops = Except.ok s') :
    ∃ rest', tableGet s'.lock_table_ key = some (LockRequest.mk EXCLUSIVE t1 :: rest') := by
  induction ops generalizing s rest with
  | nil =>
    simp only [run, Except.ok.injEq] at hr
    subst hr
    exact ⟨rest, hq⟩
  | cons op ops ih =>
    simp only [run] at hr
    cases hstep : step s op with
    | error e => simp [hstep] at hr
    | ok s1 =>
      simp only [hstep] at hr
      obtain ⟨rest1, h1⟩ := step_keeps_head s s1 op t1 key rest
        (hops op (List.mem_cons_self _ _)) hq hstep
      exact ih s1 rest1 (fun o ho => hops o (List.mem_cons_of_mem _ ho)) h1 hr

theorem refused_behind_exclusive (s : LockManagerB) (t1 t2 : Txn) (key : Key)
    (rest : Queue)
    (hq : tableGet s.lock_table_ key = some (LockRequest.mk EXCLUSIVE t1 :: rest))
    (hne : t2 ≠ t1) :
    (WriteLock s t2 key).1 = false ∧
    (WriteLock s t2 key).2.waitCount t2 = s.waitCount t2 + 1 ∧
    (ReadLock s t2 key).1 = false ∧
    (ReadLock s t2 key).2.waitCount t2 = s.waitCount t2 + 1 := by
  have hqueue : s.queue key = LockRequest.mk EXCLUSIVE t1 :: rest := by
    simp [LockManagerB.queue, hq]
  have hne' : ¬ t1 = t2 := fun e => hne e.symm
  have hw : (WriteLock s t2 key).1 = false := by
    rw [WriteLock_fst, hqueue]; simp
  have hr : (ReadLock s t2 key).1 = false := by
    rw [ReadLock_fst, hqueue]; simp [readScan, hne']
  refine ⟨hw, ?_, hr, ?_⟩
  · simp [LockManagerB.waitCount, WriteLock_waits, hw, bumpWait_self]
  · simp [LockManagerB.waitCount, ReadLock_waits, hr, bumpWait_self]

/-- C7: while an EXCLUSIVE request of `t1` stands at the head of the queue of
`key`, both `WriteLock(t2, key)` and `ReadLock(t2, key)` of any other
transaction answer `false` and raise the wait count of `t2` by one. This is the
case in every state reached, from the grant of `WriteLock(t1, key)` on an empty
or absent queue, by calls among which there is no `Release(t1, key)`. -/
theorem C7_exclusive_exclusion :
    (∀ (s : LockManagerB) (t1 t2 : Txn) (key : Key) (rest : Queue),
      tableGet s.lock_table_ key = some (LockRequest.mk EXCLUSIVE t1 :: rest) →
      t2 ≠ t1 →
      (WriteLock s t2 key).1 = false ∧
      (WriteLock s t2 key).2.waitCount t2 = s.waitCount t2 + 1 ∧
      (ReadLock s t2 key).1 = false ∧
      (ReadLock s t2 key).2.waitCount t2 = s.waitCount t2 + 1) ∧
    (∀ (s0 s : LockManagerB) (t1 t2 : Txn) (key : Key) (ops : List Op),
      s0.queue key = [] →
      (∀ op ∈ ops, op ≠ Op.release t1 key) →
      run (WriteLock s0 t1 key).2 ops = Except.ok s →
      t2 ≠ t1 →
      (WriteLock s0 t1 key).1 = true ∧
      (WriteLock s t2 key).1 = false ∧
      (WriteLock s t2 key).2.waitCount t2 = s.waitCount t2 + 1 ∧
      (ReadLock s t2 key).1 = false ∧
      (ReadLock s t2 key).2.waitCount t2 = s.waitCount t2 + 1) := by
  refine ⟨fun s t1 t2 key rest hq hne => refused_behind_exclusive s t1 t2 key rest hq hne, ?_⟩
  intro s0 s t1 t2 key ops hempty hops hrun hne
  have hgrant : (WriteLock s0 t1 key).1 = true := by
    rw [WriteLock_fst, hempty]; simp
  have hq0 : tableGet (WriteLock s0 t1 key).2.lock_table_ key
      = some (LockRequest.mk EXCLUSIVE t1 :: []) := by
    rw [WriteLock_table, hempty]; simp
  obtain ⟨rest', hq⟩ := run_keeps_head ops _ s t1 key [] hops hq0 hrun
  exact ⟨hgrant, refused_behind_exclusive s t1 t2 key rest' hq hne⟩

/-- C7 at a concrete run: `1` is granted key `0`, `3` queues a read, and then
both kinds of request of `2` are refused. -/
theorem C7_exclusive_exclusion_witness :
    (WriteLock (ReadLock (WriteLock (LockManagerB.fresh []) 1 0).2 3 0).2 2 0).1 = false ∧
    (ReadLock (ReadLock (WriteLock (LockManagerB.fresh []) 1 0).2 3 0).2 2 0).1 = false := by
  have h := C7_exclusive_exclusion.2 (LockManagerB.fresh [])
    (ReadLock (WriteLock (LockManagerB.fresh []) 1 0).2 3 0).2 1 2 0 [Op.readLock 3 0]
    (by decide) (by decide) (by rfl) (by decide)
  exact ⟨h.2.1, h.2.2.2.1⟩

/-! ## Status -/

theorem statusLoop_eq (q : Queue) (owners : List Txn) :
    statusLoop q owners =
      owners ++ (q.takeWhile (fun x => decide (x.mode_ = SHARED))).map (fun x => x.txn_) := by
  induction q generalizing owners with
  | nil => simp [statusLoop]
  | cons lr rest ih =>
    by_cases h : lr.mode_ = SHARED
    · simp [statusLoop, h, ih]
    · simp [statusLoop, h]

/-- C9: on a key present in the table, `Status` called with empty `owners`
answers UNLOCKED with no owner for an empty queue, EXCLUSIVE with the head
transaction as only owner for an EXCLUSIVE head, and otherwise SHARED with, in
queue order, the holders of the maximal run of SHARED requests from the head. -/
theorem C9_status_owners (s : LockManagerB) (key : Key) (q : Queue)
    (hq : tableGet s.lock_table_ key = some q) :
    (q = [] → Status s key [] = Except.ok (UNLOCKED, [], s)) ∧
    (∀ lr rest, q = lr :: rest → lr.mode_ = EXCLUSIVE →
        Status s key [] = Except.ok (EXCLUSIVE, [lr.txn_], s)) ∧
    (∀ lr rest, q = lr :: rest → lr.mode_ ≠ EXCLUSIVE →
        Status s key [] = Except.ok
          (SHARED,
            (q.takeWhile (fun x => decide (x.mode_ = SHARED))).map (fun x => x.txn_), s)) := by
  refine ⟨?_, ?_, ?_⟩
  · intro he
    subst he
    simp [Status, hq]
  · intro lr rest he hm
    subst he
    simp [Status, hq, frontExclusive, hm]
  · intro lr rest he hm
    subst he
    simp only [Status, hq, frontExclusive, hm, decide_False, Bool.false_eq_true, if_false]
    rw [statusLoop_eq]
    simp

/-- C9 on the two queues of the specification: `[SHARED(1), SHARED(2),
EXCLUSIVE(3)]` gives SHARED with owners `[1, 2]`, and `[EXCLUSIVE(1),
SHARED(2)]` gives EXCLUSIVE with owner `[1]`. -/
theorem C9_status_owners_witness :
    (Status (WriteLock (ReadLock (ReadLock (LockManagerB.fresh []) 1 0).2 2 0).2 3 0).2 0 []
        = Except.ok (SHARED, [1, 2],
            (WriteLock (ReadLock (ReadLock (LockManagerB.fresh []) 1 0).2 2 0).2 3 0).2)) ∧
    (Status (ReadLock (WriteLock (LockManagerB.fresh []) 1 0).2 2 0).2 0 []
        = Except.ok (EXCLUSIVE, [1], (ReadLock (WriteLock (LockManagerB.fresh []) 1 0).2 2 0).2)) :=
  ⟨(C9_status_owners (WriteLock (ReadLock (ReadLock (LockManagerB.fresh []) 1 0).2 2 0).2 3 0).2 0
      [LockRequest.mk SHARED 1, LockRequest.mk SHARED 2, LockRequest.mk EXCLUSIVE 3]
      (by decide)).2.2 (LockRequest.mk SHARED 1)
      [LockRequest.mk SHARED 2, LockRequest.mk EXCLUSIVE 3] rfl (by decide),
   (C9_status_owners (ReadLock (WriteLock (LockManagerB.fresh []) 1 0).2 2 0).2 0
      [LockRequest.mk EXCLUSIVE 1, LockRequest.mk SHARED 2]
      (by decide)).2.1 (LockRequest.mk EXCLUSIVE 1) [LockRequest.mk SHARED 2] rfl rfl⟩

/-! ## Release: the hand-over -/

/-- C6: with the queue `EXCLUSIVE(a) :: EXCLUSIVE(b) :: rest` and `a ≠ b`,
`Release(a, key)` leaves `EXCLUSIVE(b) :: rest`, lowers the wait count of `b`
by exactly one, appends `b` to the ready deque and removes its ledger entry
exactly when the count reaches zero, appends nothing else, and changes the
ledger entry of no transaction other than `a` and `b`. -/
theorem C6_exclusive_handoff (s : LockManagerB) (a b : Txn) (key : Key) (rest : Queue)
    (hq : tableGet s.lock_table_ key
      = some (LockRequest.mk EXCLUSIVE a :: LockRequest.mk EXCLUSIVE b :: rest))
    (hab : a ≠ b) :
    ∃ s', Release s a key = Except.ok s' ∧
      tableGet s'.lock_table_ key = some (LockRequest.mk EXCLUSIVE b :: rest) ∧
      s'.waitCount b = s.waitCount b - 1 ∧
      (s.waitCount b - 1 = 0 →
        s'.ready_txns_ = s.ready_txns_ ++ [b] ∧ s'.txn_waits_ b = none) ∧
      (s.waitCount b - 1 ≠ 0 →
        s'.ready_txns_ = s.ready_txns_ ∧ s'.txn_waits_ b = some (s.waitCount b - 1)) ∧
      (∀ t, t ≠ a → t ≠ b → s'.txn_waits_ t = s.txn_waits_ t) := by
  obtain ⟨s', hrel, htbl, hst⟩ := Release_ok s a key _ hq (by simp [findTxn])
  have hba : ¬ b = a := fun e => hab e.symm
  simp only [findTxn, if_true, passLock, List.eraseIdx_cons_zero, frontExclusive,
    decide_True, turnOver, and_self] at hst
  have hw : s'.txn_waits_ = (grantOne (eraseWait s.txn_waits_ a, s.ready_txns_) b).1 :=
    congrArg Prod.fst hst
  have hr : s'.ready_txns_ = (grantOne (eraseWait s.txn_waits_ a, s.ready_txns_) b).2 :=
    congrArg Prod.snd hst
  have hb : (eraseWait s.txn_waits_ a b).getD 0 = s.waitCount b := by
    simp [eraseWait_apply, hba, LockManagerB.waitCount]
  refine ⟨s', hrel, ?_, ?_, ?_, ?_, ?_⟩
  · rw [htbl, tableGet_tableSet]; simp [findTxn]
  · unfold LockManagerB.waitCount
    rw [hw, grantOne_count]
    simp [eraseWait_apply, hba]
  · intro hz
    rw [hw, hr, grantOne_ready, grantOne_waits]
    simp only [hb, hz, if_true]
    exact ⟨trivial, trivial⟩
  · intro hz
    rw [hw, hr, grantOne_ready, grantOne_waits]
    simp only [hb, hz, if_false, if_true]
    exact ⟨trivial, trivial⟩
  · intro t hta htb
    rw [hw, grantOne_waits]
    simp [htb, eraseWait_apply, hta]

/-- C6 at a concrete run: two write requests on key `0`, then the release of
the first hands the lock to the second, which becomes ready. -/
theorem C6_exclusive_handoff_witness :
    ∃ s', Release (WriteLock (WriteLock (LockManagerB.fresh []) 1 0).2 2 0).2 1 0
        = Except.ok s' ∧
      tableGet s'.lock_table_ 0 = some [LockRequest.mk EXCLUSIVE 2] ∧
      s'.ready_txns_ = [2] ∧ s'.txn_waits_ 2 = none := by
  obtain ⟨s', h1, h2, _, h4, _⟩ :=
    C6_exclusive_handoff (WriteLock (WriteLock (LockManagerB.fresh []) 1 0).2 2 0).2 1 2 0 []
      (by decide) (by decide)
  have h := h4 (by decide)
  exact ⟨s', h1, h2, h.1, h.2⟩

theorem turnOver_false_shared (lr : LockRequest) (rest : Queue)
    (st : (Txn → Option Int) × List Txn) (h : lr.mode_ = SHARED) :
    turnOver false (lr :: rest) st = turnOver false rest (grantOne st lr.txn_) := by
  simp [turnOver, h]

theorem turnOver_false_exclusive (lr : LockRequest) (rest : Queue)
    (st : (Txn → Option Int) × List Txn) (h : lr.mode_ = EXCLUSIVE) :
    turnOver false (lr :: rest) st = st := by
  simp [turnOver, h]

theorem turnOver_true_exclusive (lr : LockRequest) (rest : Queue)
    (st : (Txn → Option Int) × List Txn) (h : lr.mode_ = EXCLUSIVE) :
    turnOver true (lr :: rest) st = grantOne st lr.txn_ := by
  simp [turnOver, h]

theorem turnOver_shared_run (bs : List Txn) (d : Txn) (rest : Queue)
    (w : Txn → Option Int) (r : List Txn) (hnd : bs.Nodup)
    (h1 : ∀ b ∈ bs, w b = some 1) :
    turnOver false (bs.map (LockRequest.mk SHARED) ++ LockRequest.mk EXCLUSIVE d :: rest) (w, r)
      = ((fun u => if u ∈ bs then none else w u), r ++ bs) := by
  induction bs generalizing w r with
  | nil => simp [turnOver]
  | cons b bs ih =>
    have hb : w b = some 1 := h1 b (List.mem_cons_self _ _)
    have hnd' : bs.Nodup := (List.nodup_cons.mp hnd).2
    have hbn : b ∉ bs := (List.nodup_cons.mp hnd).1
    have hg : grantOne (w, r) b = (eraseWait w b, r ++ [b]) := by
      simp [grantOne, hb]
    have h1' : ∀ b' ∈ bs, eraseWait w b b' = some 1 := by
      intro b' hb'
      have hne : b' ≠ b := fun e => hbn (e ▸ hb')
      simp [eraseWait_apply, hne, h1 b' (List.mem_cons_of_mem _ hb')]
    rw [List.map_cons, List.cons_append, turnOver_false_shared _ _ _ rfl, hg,
      ih (eraseWait w b) (r ++ [b]) hnd' h1']
    refine Prod.ext ?_ (by simp)
    funext u
    by_cases hu : u = b
    · subst hu; simp [eraseWait_apply]
    · simp [eraseWait_apply, hu]

/-- C4: with the queue `EXCLUSIVE(a)`, then SHARED requests of pairwise distinct
`b1 .. bn` (`n ≥ 1`) each with wait count `1`, then `EXCLUSIVE(d)`, then anything,
where `a` and `d` differ from each other and from every `bi`: `Release(a, key)`
appends exactly `b1 .. bn` in queue order to the ready deque, removes their
ledger entries, leaves the ledger entry of `d` as it was and `d` off the appended
transactions, and leaves the queue equal to its former tail. -/
theorem C4_shared_batch (s : LockManagerB) (a d : Txn) (key : Key) (bs : List Txn)
    (rest : Queue)
    (hq : tableGet s.lock_table_ key = some (LockRequest.mk EXCLUSIVE a ::
      (bs.map (LockRequest.mk SHARED) ++ LockRequest.mk EXCLUSIVE d :: rest)))
    (hne : bs ≠ []) (hnd : bs.Nodup) (had : a ≠ d) (ha : a ∉ bs) (hd : d ∉ bs)
    (h1 : ∀ b ∈ bs, s.waitCount b = 1) :
    ∃ s', Release s a key = Except.ok s' ∧
      s'.ready_txns_ = s.ready_txns_ ++ bs ∧
      (∀ b ∈ bs, s'.txn_waits_ b = none) ∧
      s'.txn_waits_ d = s.txn_waits_ d ∧
      (∀ t, t ∈ s'.ready_txns_ → t ∉ s.ready_txns_ → t ≠ d) ∧
      tableGet s'.lock_table_ key
        = some (bs.map (LockRequest.mk SHARED) ++ LockRequest.mk EXCLUSIVE d :: rest) := by
  obtain ⟨s', hrel, htbl, hst⟩ := Release_ok s a key _ hq (by simp [findTxn])
  have hfront : frontExclusive
      (bs.map (LockRequest.mk SHARED) ++ LockRequest.mk EXCLUSIVE d :: rest) = false := by
    cases bs with
    | nil => exact absurd rfl hne
    | cons b bs => simp [frontExclusive]
  have hw1 : ∀ b ∈ bs, eraseWait s.txn_waits_ a b = some 1 := by
    intro b hb
    have hba : b ≠ a := fun e => ha (e ▸ hb)
    have hc := h1 b hb
    unfold LockManagerB.waitCount at hc
    rw [eraseWait_apply]
    simp only [hba, if_false]
    cases hwb : s.txn_waits_ b with
    | none => simp [hwb] at hc
    | some c => simp [hwb] at hc; simp [hc]
  simp only [findTxn, if_true, passLock, List.eraseIdx_cons_zero, hfront,
    turnOver_shared_run bs d rest _ _ hnd hw1, Prod.mk.injEq] at hst
  obtain ⟨hw, hr⟩ := hst
  have hda : ¬ d = a := fun e => had e.symm
  refine ⟨s', hrel, hr, ?_, ?_, ?_, ?_⟩
  · intro b hb; simp [hw, hb]
  · simp [hw, hd, eraseWait_apply, hda]
  · intro t ht hnt hdt
    rw [hr] at ht
    rcases List.mem_append.mp ht with h | h
    · exact hnt h
    · exact hd (hdt ▸ h)
  · rw [htbl, tableGet_tableSet]; simp [findTxn]

/-- C4 on the queue of the specification, `[EXCLUSIVE(1), SHARED(2), SHARED(3),
EXCLUSIVE(4)]` built by four requests on a fresh manager: releasing `1` makes
`2` and `3` ready, in that order, and not `4`. -/
theorem C4_shared_batch_witness :
    ∃ s', Release (WriteLock (ReadLock (ReadLock
        (WriteLock (LockManagerB.fresh []) 1 0).2 2 0).2 3 0).2 4 0).2 1 0 = Except.ok s' ∧
      s'.ready_txns_ = [2, 3] := by
  obtain ⟨s', h1, h2, _⟩ := C4_shared_batch
    (WriteLock (ReadLock (ReadLock (WriteLock (LockManagerB.fresh []) 1 0).2 2 0).2 3 0).2 4 0).2
    1 4 0 [2, 3] [] (by decide) (by decide) (by decide) (by decide) (by decide) (by decide)
    (by decide)
  exact ⟨s', h1, h2⟩

/-! ## FIFO order among EXCLUSIVE requests -/

/-- Write requests arriving at a non-empty queue are all refused, queued in
arrival order and counted once each. -/
theorem lockAll_nonempty (ts : List Txn) (s : LockManagerB) (key : Key)
    (hq : s.queue key ≠ []) :
    (lockAll s key ts).1 = List.replicate ts.length false ∧
    tableGet (lockAll s key ts).2.lock_table_ key
      = some (s.queue key ++ ts.map (LockRequest.mk EXCLUSIVE)) ∧
    (lockAll s key ts).2.txn_waits_ = ts.foldl bumpWait s.txn_waits_ ∧
    (lockAll s key ts).2.ready_txns_ = s.ready_txns_ := by
  induction ts generalizing s with
  | nil =>
    refine ⟨rfl, ?_, rfl, rfl⟩
    simp only [lockAll, List.map_nil, List.append_nil]
    unfold LockManagerB.queue at hq ⊢
    cases h : tableGet s.lock_table_ key with
    | none => simp [h] at hq
    | some q => simp
  | cons t ts ih =>
    have hf : (WriteLock s t key).1 = false := by
      rw [WriteLock_fst]; simp [hq]
    have hq1 : (WriteLock s t key).2.queue key = s.queue key ++ [LockRequest.mk EXCLUSIVE t] := by
      simp [LockManagerB.queue, WriteLock_table]
    have hne1 : (WriteLock s t key).2.queue key ≠ [] := by
      rw [hq1]; simp
    obtain ⟨i1, i2, i3, i4⟩ := ih (WriteLock s t key).2 hne1
    refine ⟨?_, ?_, ?_, ?_⟩
    · simp [lockAll, hf, i1, List.replicate_succ]
    · simp only [lockAll]
      rw [i2, hq1]; simp
    · simp only [lockAll]
      rw [i3, WriteLock_waits]; simp [hf]
    · simp only [lockAll]
      rw [i4, WriteLock_ready]

theorem foldl_bumpWait_nodup (ts : List Txn) (w : Txn → Option Int) (hnd : ts.Nodup)
    (hw : ∀ t ∈ ts, w t = none) (u : Txn) :
    ts.foldl bumpWait w u = if u ∈ ts then some 1 else w u := by
  induction ts generalizing w with
  | nil => simp
  | cons t ts ih =>
    have hnd' : ts.Nodup := (List.nodup_cons.mp hnd).2
    have htn : t ∉ ts := (List.nodup_cons.mp hnd).1
    have hw' : ∀ x ∈ ts, bumpWait w t x = none := by
      intro x hx
      have hne : x ≠ t := fun e => htn (e ▸ hx)
      rw [bumpWait_other _ _ _ hne]
      exact hw x (List.mem_cons_of_mem _ hx)
    rw [List.foldl_cons, ih (bumpWait w t) hnd' hw']
    by_cases hu : u ∈ ts
    · simp [hu]
    · by_cases hut : u = t
      · subst hut
        simp [hu, bumpWait_self, hw u (List.mem_cons_self _ _)]
      · simp [hu, hut, bumpWait_other _ _ _ hut]

/-- One release at the head of a queue of EXCLUSIVE requests of distinct
transactions, each waiter counted once: the next transaction, if any, becomes
ready, and the rest stays as it was. -/
theorem release_head_of_exclusives (s : LockManagerB) (key : Key) (t : Txn) (l : List Txn)
    (hq : tableGet s.lock_table_ key = some ((t :: l).map (LockRequest.mk EXCLUSIVE)))
    (hnd : (t :: l).Nodup)
    (hw : ∀ u, s.txn_waits_ u = if u ∈ l then some 1 else none) :
    ∃ s', Release s t key = Except.ok s' ∧
      tableGet s'.lock_table_ key = some (l.map (LockRequest.mk EXCLUSIVE)) ∧
      (∀ u, s'.txn_waits_ u = if u ∈ l.tail then some 1 else none) ∧
      s'.ready_txns_ = s.ready_txns_ ++ l.take 1 := by
  obtain ⟨s', hrel, htbl, hst⟩ := Release_ok s t key _ hq (by simp [findTxn])
  have htl : t ∉ l := (List.nodup_cons.mp hnd).1
  have hndl : l.Nodup := (List.nodup_cons.mp hnd).2
  refine ⟨s', hrel, ?_, ?_⟩
  · rw [htbl, tableGet_tableSet]; simp [findTxn]
  cases l with
  | nil =>
    simp only [List.map_cons, List.map_nil, findTxn, if_true, passLock,
      List.eraseIdx_cons_zero, turnOver, Prod.mk.injEq] at hst
    obtain ⟨h1, h2⟩ := hst
    refine ⟨?_, by simp [h2]⟩
    intro u
    simp [h1, eraseWait_apply, hw u]
  | cons b l =>
    have hbt : b ≠ t := fun e => htl (e ▸ List.mem_cons_self _ _)
    have hbl : b ∉ l := (List.nodup_cons.mp hndl).1
    have hcb : (eraseWait s.txn_waits_ t b).getD 0 - 1 = 0 := by
      simp [eraseWait_apply, hbt, hw b]
    simp only [List.map_cons, findTxn, if_true, passLock, List.eraseIdx_cons_zero,
      frontExclusive, decide_True,
      turnOver_true_exclusive (LockRequest.mk EXCLUSIVE b) _ _ rfl] at hst
    have h1 : s'.txn_waits_ = (grantOne (eraseWait s.txn_waits_ t, s.ready_txns_) b).1 :=
      congrArg Prod.fst hst
    have h2 : s'.ready_txns_ = (grantOne (eraseWait s.txn_waits_ t, s.ready_txns_) b).2 :=
      congrArg Prod.snd hst
    refine ⟨?_, ?_⟩
    · intro u
      rw [h1, grantOne_waits]
      simp only [hcb, if_true, List.tail_cons]
      by_cases hub : u = b
      · subst hub; simp [hbl]
      · by_cases hut : u = t
        · subst hut
          have : u ∉ l := fun h => htl (List.mem_cons_of_mem _ h)
          simp [hub, eraseWait_apply, this]
        · simp [hub, eraseWait_apply, hut, hw u]
    · rw [h2, grantOne_ready]
      simp [hcb]

theorem release_chain (i : Nat) (l : List Txn) (s : LockManagerB) (key : Key)
    (hq : tableGet s.lock_table_ key = some (l.map (LockRequest.mk EXCLUSIVE)))
    (hnd : l.Nodup)
    (hw : ∀ u, s.txn_waits_ u = if u ∈ l.tail then some 1 else none)
    (hi : i ≤ l.length) :
    ∃ s', run s ((l.take i).map (fun t => Op.release t key)) = Except.ok s' ∧
      s'.ready_txns_ = s.ready_txns_ ++ (l.drop 1).take i := by
  induction i generalizing l s with
  | zero => exact ⟨s, by simp [run], by simp⟩
  | succ i ih =>
    cases l with
    | nil => simp at hi
    | cons t l =>
      obtain ⟨s1, hrel, hq1, hw1, hr1⟩ :=
        release_head_of_exclusives s key t l hq hnd (by simpa using hw)
      obtain ⟨s2, hrun, hr2⟩ := ih l s1 hq1 (List.nodup_cons.mp hnd).2 hw1
        (by simpa using hi)
      refine ⟨s2, ?_, ?_⟩
      · simp only [List.take_succ_cons, List.map_cons, run, step, hrel]
        exact hrun
      · rw [hr2, hr1]
        cases l with
        | nil => simp
        | cons b l => simp

/-- C5: for `n ≥ 1` pairwise distinct transactions `t1 .. tn` and a fresh manager,
the calls `WriteLock(ti, k)` in order answer `true` for `t1` and `false` for all
others; then, releasing `t1, t2, ..` in that order, after the first `i` releases
the ready deque holds exactly `t2 .. t(i+1)` behind what it held at
construction: the `i`-th release appends `t(i+1)` and nothing else, the last
one nothing, and the deque ends as `[t2, .., tn]` in arrival order. -/
theorem C5_fifo_exclusive (ts : List Txn) (k : Key) (ready0 : List Txn)
    (hne : ts ≠ []) (hnd : ts.Nodup) :
    (lockAll (LockManagerB.fresh ready0) k ts).1
        = true :: List.replicate (ts.length - 1) false ∧
    (∀ i, i ≤ ts.length →
      ∃ s', run (lockAll (LockManagerB.fresh ready0) k ts).2
          ((ts.take i).map (fun t => Op.release t k)) = Except.ok s' ∧
        s'.ready_txns_ = ready0 ++ (ts.drop 1).take i) ∧
    (∃ s', run (lockAll (LockManagerB.fresh ready0) k ts).2
          (ts.map (fun t => Op.release t k)) = Except.ok s' ∧
        s'.ready_txns_ = ready0 ++ ts.drop 1) := by
  cases ts with
  | nil => exact absurd rfl hne
  | cons t ts =>
    have hnd' : ts.Nodup := (List.nodup_cons.mp hnd).2
    have hq1 : (WriteLock (LockManagerB.fresh ready0) t k).2.queue k
        = [LockRequest.mk EXCLUSIVE t] := by
      simp [LockManagerB.queue, WriteLock_table, LockManagerB.fresh, tableGet]
    have hgrant' : (WriteLock (LockManagerB.fresh ready0) t k).1 = true := by
      rw [WriteLock_fst]; simp [LockManagerB.queue, LockManagerB.fresh, tableGet]
    obtain ⟨i1, i2, i3, i4⟩ := lockAll_nonempty ts
      (WriteLock (LockManagerB.fresh ready0) t k).2 k (by rw [hq1]; simp)
    have hq : tableGet (lockAll (LockManagerB.fresh ready0) k (t :: ts)).2.lock_table_ k
        = some ((t :: ts).map (LockRequest.mk EXCLUSIVE)) := by
      simp only [lockAll]
      rw [i2, hq1]; simp
    have hw : ∀ u, (lockAll (LockManagerB.fresh ready0) k (t :: ts)).2.txn_waits_ u
        = if u ∈ (t :: ts).tail then some 1 else none := by
      intro u
      simp only [lockAll]
      rw [i3, WriteLock_waits]
      simp only [hgrant', if_true, List.tail_cons]
      rw [foldl_bumpWait_nodup ts (LockManagerB.fresh ready0).txn_waits_ hnd'
        (fun _ _ => rfl)]
      rfl
    have hr : (lockAll (LockManagerB.fresh ready0) k (t :: ts)).2.ready_txns_ = ready0 := by
      simp only [lockAll]
      rw [i4, WriteLock_ready]; rfl
    have hchain : ∀ i, i ≤ (t :: ts).length →
        ∃ s', run (lockAll (LockManagerB.fresh ready0) k (t :: ts)).2
          (((t :: ts).take i).map (fun t => Op.release t k)) = Except.ok s' ∧
        s'.ready_txns_ = ready0 ++ ((t :: ts).drop 1).take i := by
      intro i hi
      obtain ⟨s', h1, h2⟩ := release_chain i (t :: ts) _ k hq hnd hw hi
      exact ⟨s', h1, by rw [h2, hr]⟩
    refine ⟨?_, hchain, ?_⟩
    · simp [lockAll, hgrant', i1]
    · obtain ⟨s', h1, h2⟩ := hchain (t :: ts).length (le_refl _)
      refine ⟨s', by simpa using h1, ?_⟩
      rw [h2]
      simp

/-- C5 for three transactions on a fresh manager: the answers are `true, false,
false`, and the three releases leave the ready deque `[2, 3]`. -/
theorem C5_fifo_exclusive_witness :
    (lockAll (LockManagerB.fresh []) 0 [1, 2, 3]).1 = [true, false, false] ∧
    ∃ s', run (lockAll (LockManagerB.fresh []) 0 [1, 2, 3]).2
        [Op.release 1 0, Op.release 2 0, Op.release 3 0] = Except.ok s' ∧
      s'.ready_txns_ = [2, 3] := by
  have h := C5_fifo_exclusive [1, 2, 3] 0 [] (by decide) (by decide)
  exact ⟨h.1, h.2.2⟩

/-! ## Release of a request that is not at the head -/

theorem holders_eq (s : LockManagerB) (key : Key) :
    holders s key =
      match s.queue key with
      | [] => []
      | f :: rest =>
        if f.mode_ = EXCLUSIVE then [f.txn_]
        else ((f :: rest).takeWhile isShared).map (fun x => x.txn_) := by
  unfold holders Status LockManagerB.queue
  cases hq : tableGet s.lock_table_ key with
  | none => simp
  | some q =>
    cases q with
    | nil => simp
    | cons f rest =>
      by_cases hm : f.mode_ = EXCLUSIVE
      · simp [frontExclusive, hm]
      · simp only [frontExclusive, hm, decide_False, Bool.false_eq_true, if_false,
          Option.getD_some]
        rw [statusLoop_eq]
        rfl

/-- Erasing one entry shortens the leading run of entries that pass a test,
unless the entry erased is the first that fails it and the one behind passes. -/
theorem takeWhile_eraseIdx_sublist (p : LockRequest → Bool) (q : Queue) (i : Nat)
    (h : i = (q.takeWhile p).length → ∀ lr, q[i + 1]? = some lr → p lr = false) :
    ((q.eraseIdx i).takeWhile p).Sublist (q.takeWhile p) := by
  induction q generalizing i with
  | nil => simp
  | cons x xs ih =>
    cases i with
    | zero =>
      by_cases hx : p x = true
      · simp only [List.eraseIdx_cons_zero, List.takeWhile_cons, hx, if_true]
        exact List.sublist_cons_self _ _
      · have h0 := h (by simp [List.takeWhile_cons, hx])
        simp only [List.eraseIdx_cons_zero, List.takeWhile_cons, hx]
        cases xs with
        | nil => simp
        | cons y ys =>
          have hy : p y = false := h0 y (by simp)
          simp [List.takeWhile_cons, hy]
    | succ j =>
      by_cases hx : p x = true
      · simp only [List.eraseIdx_cons_succ, List.takeWhile_cons, hx, if_true]
        refine List.Sublist.cons₂ _ (ih j ?_)
        intro hj lr hlr
        refine h ?_ lr ?_
        · simp [List.takeWhile_cons, hx, hj]
        · simpa using hlr
      · simp [List.takeWhile_cons, hx]

/-- C10, what fails: in the queue `[SHARED(1), EXCLUSIVE(2), SHARED(3)]` of key
`0` the request of `2` is not at the head, `3` is not among the owners, and
after `Release(2, 0)` the queue is `[SHARED(1), SHARED(3)]`: `Status` reports `3`
as an owner, while the ready deque stayed empty and `3` keeps wait count `1`. -/
theorem C10_nonhead_release_counterexample :
    findTxn 2 ((ReadLock (WriteLock (ReadLock (LockManagerB.fresh []) 1 0).2 2 0).2 3 0).2.queue 0)
      = 1 ∧
    3 ∉ holders (ReadLock (WriteLock (ReadLock (LockManagerB.fresh []) 1 0).2 2 0).2 3 0).2 0 ∧
    ∃ s', Release (ReadLock (WriteLock (ReadLock (LockManagerB.fresh []) 1 0).2 2 0).2 3 0).2 2 0
        = Except.ok s' ∧
      3 ∈ holders s' 0 ∧ s'.ready_txns_ = [] ∧ s'.txn_waits_ 3 = some 1 :=
  ⟨by decide, by decide, _, rfl, by decide, by decide, by decide⟩

/-- C10, amended: when the first request of `txn` in the queue of `key` is not
at the head, `Release(txn, key)` hands nothing over: the ready deque is
unchanged and no ledger entry other than that of `txn` changes. Moreover,
unless that request is the first request of the queue that is not SHARED and
the request right behind it is SHARED, every owner that `Status` reports for
`key` after the call was an owner before the call. -/
theorem C10_nonhead_release (s s' : LockManagerB) (txn : Txn) (key : Key)
    (hrel : Release s txn key = Except.ok s')
    (hpos : findTxn txn (s.queue key) ≠ 0) :
    s'.ready_txns_ = s.ready_txns_ ∧
    (∀ t, t ≠ txn → s'.txn_waits_ t = s.txn_waits_ t) ∧
    ((findTxn txn (s.queue key) = ((s.queue key).takeWhile isShared).length →
        ∀ lr, (s.queue key)[findTxn txn (s.queue key) + 1]? = some lr →
          lr.mode_ ≠ SHARED) →
      ∀ t ∈ holders s' key, t ∈ holders s key) := by
  obtain ⟨locks, hq, hi⟩ := Release_ok_inv s s' txn key hrel
  have hqueue : s.queue key = locks := by simp [LockManagerB.queue, hq]
  obtain ⟨s2, h2, _, hst⟩ := Release_ok s txn key locks hq hi
  rw [hrel] at h2
  cases h2
  rw [hqueue] at hpos
  obtain ⟨j, hj⟩ := Nat.exists_eq_succ_of_ne_zero hpos
  have hpass : passLock locks (findTxn txn locks) = false := by
    rw [hj]; cases locks <;> rfl
  simp only [hpass, Bool.false_eq_true, if_false, Prod.mk.injEq] at hst
  refine ⟨hst.2, ?_, ?_⟩
  · intro t ht
    rw [hst.1, eraseWait_apply]
    simp [ht]
  · intro hsep t ht
    have hq' : s'.queue key = locks.eraseIdx (findTxn txn locks) := by
      simp [LockManagerB.queue, Release_table s s' txn key key hrel, hq]
    rw [holders_eq, hq'] at ht
    rw [holders_eq, hqueue]
    rw [hqueue] at hsep
    cases locks with
    | nil => simp at hi
    | cons f rest =>
      rw [hj] at ht hsep
      simp only [List.eraseIdx_cons_succ] at ht
      by_cases hm : f.mode_ = EXCLUSIVE
      · simpa [hm] using ht
      · simp only [hm, if_false] at ht ⊢
        rw [← List.eraseIdx_cons_succ] at ht
        have hsub := takeWhile_eraseIdx_sublist isShared (f :: rest) (j + 1) (by
          intro hlen lr hlr
          have := hsep hlen lr hlr
          simpa [isShared] using this)
        exact (hsub.map (fun x => x.txn_)).subset ht

/-- C10, the amended statement at a concrete run: from `[SHARED(1), SHARED(2),
EXCLUSIVE(3)]` the release of `2`, a holder that is not at the head, leaves the
owners within `[1, 2]` and readies nobody. -/
theorem C10_nonhead_release_witness :
    ∃ s', Release (WriteLock (ReadLock (ReadLock (LockManagerB.fresh []) 1 0).2 2 0).2 3 0).2 2 0
        = Except.ok s' ∧
      s'.ready_txns_ = [] ∧
      ∀ t ∈ holders s' 0,
        t ∈ holders (WriteLock (ReadLock (ReadLock (LockManagerB.fresh []) 1 0).2 2 0).2 3 0).2 0 :=
  ⟨_, rfl,
    (C10_nonhead_release
      (WriteLock (ReadLock (ReadLock (LockManagerB.fresh []) 1 0).2 2 0).2 3 0).2 _ 2 0 rfl
      (by decide)).1,
    (C10_nonhead_release
      (WriteLock (ReadLock (ReadLock (LockManagerB.fresh []) 1 0).2 2 0).2 3 0).2 _ 2 0 rfl
      (by decide)).2.2 (by decide)⟩

/-! ## The wait-count ledger against the queues -/

theorem drop_length_takeWhile (p : LockRequest → Bool) (l : Queue) :
    l.drop (l.takeWhile p).length = l.dropWhile p := by
  induction l with
  | nil => simp
  | cons x xs ih =>
    by_cases hx : p x = true
    · simp [List.takeWhile_cons, List.dropWhile_cons, hx, ih]
    · simp [List.takeWhile_cons, List.dropWhile_cons, hx]

theorem behind_nil (u : Txn) : behind u [] = 0 := by
  simp [behind, grantedLen]

theorem behind_cons_exclusive (u : Txn) (f : LockRequest) (rest : Queue)
    (h : f.mode_ = EXCLUSIVE) :
    behind u (f :: rest) = rest.countP (fun x => decide (x.txn_ = u)) := by
  simp [behind, grantedLen, h]

theorem behind_cons_other (u : Txn) (f : LockRequest) (rest : Queue)
    (h : f.mode_ ≠ EXCLUSIVE) :
    behind u (f :: rest)
      = ((f :: rest).dropWhile isShared).countP (fun x => decide (x.txn_ = u)) := by
  unfold behind grantedLen
  simp only [h, if_false]
  rw [drop_length_takeWhile]

theorem grantedLen_le (q : Queue) : grantedLen q ≤ q.length := by
  cases q with
  | nil => simp [grantedLen]
  | cons f rest =>
    by_cases h : f.mode_ = EXCLUSIVE
    · simp [grantedLen, h]
    · simp only [grantedLen, h, if_false]
      exact (List.takeWhile_sublist _).length_le

theorem takeWhile_append_singleton (p : LockRequest → Bool) (q : Queue) (lr : LockRequest)
    (h : p lr = false ∨ ∃ x ∈ q, p x = false) :
    (q ++ [lr]).takeWhile p = q.takeWhile p := by
  induction q with
  | nil =>
    rcases h with h | ⟨x, hx, _⟩
    · simp [List.takeWhile_cons, h]
    · simp at hx
  | cons y ys ih =>
    by_cases hy : p y = true
    · simp only [List.cons_append, List.takeWhile_cons, hy, if_true]
      congr 1
      apply ih
      rcases h with h | ⟨x, hx, hpx⟩
      · exact Or.inl h
      · rcases List.mem_cons.mp hx with e | hx'
        · subst e; rw [hy] at hpx; exact absurd hpx (by simp)
        · exact Or.inr ⟨x, hx', hpx⟩
    · simp [List.takeWhile_cons, hy]

theorem grantedLen_append (q : Queue) (lr : LockRequest) (hq : q ≠ [])
    (h : isShared lr = false ∨ ∃ x ∈ q, isShared x = false) :
    grantedLen (q ++ [lr]) = grantedLen q := by
  cases q with
  | nil => exact absurd rfl hq
  | cons f rest =>
    by_cases hm : f.mode_ = EXCLUSIVE
    · simp [grantedLen, hm]
    · simp only [List.cons_append, grantedLen, hm, if_false]
      rw [← List.cons_append, takeWhile_append_singleton isShared (f :: rest) lr h]

theorem behind_append (u : Txn) (q : Queue) (lr : LockRequest)
    (h : grantedLen (q ++ [lr]) = grantedLen q) :
    behind u (q ++ [lr]) = behind u q + (if lr.txn_ = u then 1 else 0) := by
  unfold behind
  rw [h, List.drop_append_of_le_length (grantedLen_le q), List.countP_append]
  by_cases hu : lr.txn_ = u
  · simp [hu]
  · simp [hu]

theorem grantedLen_all_shared (q : Queue) (h : ∀ x ∈ q, x.mode_ = SHARED) :
    grantedLen q = q.length := by
  cases q with
  | nil => simp [grantedLen]
  | cons f rest =>
    have hf : f.mode_ = SHARED := h f (List.mem_cons_self _ _)
    have hall : (f :: rest).takeWhile isShared = f :: rest := by
      rw [List.takeWhile_eq_self_iff]
      intro x hx
      simp [isShared, h x hx]
    simp only [grantedLen, hf, reduceCtorEq, if_false, hall]

theorem behind_all_shared (u : Txn) (q : Queue) (h : ∀ x ∈ q, x.mode_ = SHARED) :
    behind u q = 0 := by
  simp [behind, grantedLen_all_shared q h]

theorem mode_cases (lr : LockRequest) (h : lr.mode_ ≠ UNLOCKED) :
    lr.mode_ = SHARED ∨ lr.mode_ = EXCLUSIVE := by
  cases hm : lr.mode_ with
  | UNLOCKED => exact absurd hm h
  | SHARED => exact Or.inl rfl
  | EXCLUSIVE => exact Or.inr rfl

/-- The turn-over loop started on a SHARED head lowers each wait count by the
number of entries the transaction has in the leading SHARED run. -/
theorem turnOver_false_count (l : Queue) (st : (Txn → Option Int) × List Txn) (u : Txn)
    (hnu : ∀ x ∈ l, x.mode_ ≠ UNLOCKED) :
    ((turnOver false l st).1 u).getD 0
      = (st.1 u).getD 0 - ((l.takeWhile isShared).countP (fun x => decide (x.txn_ = u)) : Nat) := by
  induction l generalizing st with
  | nil => simp [turnOver]
  | cons f rest ih =>
    have hrest : ∀ x ∈ rest, x.mode_ ≠ UNLOCKED := fun x hx => hnu x (List.mem_cons_of_mem _ hx)
    rcases mode_cases f (hnu f (List.mem_cons_self _ _)) with hm | hm
    · rw [turnOver_false_shared f rest st hm, ih _ hrest, grantOne_count]
      have hs : isShared f = true := by simp [isShared, hm]
      simp only [List.takeWhile_cons, hs, if_true, List.countP_cons]
      by_cases hu : u = f.txn_
      · subst hu; simp; omega
      · have hu' : ¬ f.txn_ = u := fun e => hu e.symm
        simp [hu, hu']
    · rw [turnOver_false_exclusive f rest st hm]
      have hs : isShared f = false := by simp [isShared, hm]
      simp [List.takeWhile_cons, hs]

theorem dropWhile_eraseIdx (p : LockRequest → Bool) (l : Queue) (j : Nat)
    (hj : j < (l.takeWhile p).length) :
    (l.eraseIdx j).dropWhile p = l.dropWhile p := by
  induction l generalizing j with
  | nil => simp at hj
  | cons x xs ih =>
    by_cases hx : p x = true
    · cases j with
      | zero => simp [List.dropWhile_cons, hx]
      | succ j =>
        simp only [List.takeWhile_cons, hx, if_true, List.length_cons,
          Nat.add_lt_add_iff_right] at hj
        simp [List.dropWhile_cons, hx, ih j hj]
    · simp [List.takeWhile_cons, hx] at hj

theorem countP_takeWhile_add_dropWhile (p q : LockRequest → Bool) (l : Queue) :
    (l.takeWhile p).countP q + (l.dropWhile p).countP q = l.countP q := by
  rw [← List.countP_append, List.takeWhile_append_dropWhile]

/-- Queue-level account of a release of a granted entry (position `i` inside
the granted part): what the turn-over takes from each wait count is what the
transaction loses in entries behind the granted part. -/
theorem release_queue_count (q : Queue) (i : Nat) (st : (Txn → Option Int) × List Txn)
    (u : Txn) (hnu : ∀ x ∈ q, x.mode_ ≠ UNLOCKED) (hi : i < grantedLen q) :
    ((if passLock q i = true then
        turnOver (frontExclusive (q.eraseIdx i)) (q.eraseIdx i) st else st).1 u).getD 0
      + (behind u q : Int)
      = (st.1 u).getD 0 + (behind u (q.eraseIdx i) : Int) := by
  cases q with
  | nil => simp [grantedLen] at hi
  | cons f rest =>
    have hrest : ∀ x ∈ rest, x.mode_ ≠ UNLOCKED := fun x hx => hnu x (List.mem_cons_of_mem _ hx)
    rcases mode_cases f (hnu f (List.mem_cons_self _ _)) with hf | hf
    · -- a SHARED head
      have hfx : f.mode_ ≠ EXCLUSIVE := by rw [hf]; decide
      have hfs : isShared f = true := by simp [isShared, hf]
      cases i with
      | zero =>
        cases rest with
        | nil =>
          have hp : passLock [f] 0 = false := by simp [passLock, hf]
          simp only [hp, Bool.false_eq_true, if_false, List.eraseIdx_cons_zero]
          rw [behind_cons_other u f _ hfx, behind_nil]
          simp [List.dropWhile_cons, hfs]
        | cons b rest' =>
          rcases mode_cases b (hnu b (by simp)) with hb | hb
          · have hbx : b.mode_ ≠ EXCLUSIVE := by rw [hb]; decide
            have hp : passLock (f :: b :: rest') 0 = false := by
              simp [passLock, hf, hb]
            simp only [hp, Bool.false_eq_true, if_false, List.eraseIdx_cons_zero]
            rw [behind_cons_other u f _ hfx, behind_cons_other u b _ hbx,
              List.dropWhile_cons]
            simp [hfs]
          · have hp : passLock (f :: b :: rest') 0 = true := by
              simp [passLock, hf, hb]
            have hbs : isShared b = false := by simp [isShared, hb]
            simp only [hp, if_true, List.eraseIdx_cons_zero, frontExclusive, hb, decide_True]
            rw [turnOver_true_exclusive b rest' st hb, grantOne_count,
              behind_cons_other u f _ hfx, behind_cons_exclusive u b _ hb]
            simp only [List.dropWhile_cons, hfs, if_true, hbs, Bool.false_eq_true, if_false,
              List.countP_cons]
            by_cases hu : u = b.txn_
            · subst hu; simp
            · have hu' : ¬ b.txn_ = u := fun e => hu e.symm
              simp [hu, hu']
      | succ j =>
        have hp : passLock (f :: rest) (j + 1) = false := rfl
        have hj : j < (rest.takeWhile isShared).length := by
          simp only [grantedLen, hfx, if_false, List.takeWhile_cons, hfs, if_true,
            List.length_cons, Nat.add_lt_add_iff_right] at hi
          exact hi
        simp only [hp, Bool.false_eq_true, if_false, List.eraseIdx_cons_succ]
        rw [behind_cons_other u f _ hfx, behind_cons_other u f _ hfx]
        simp only [List.dropWhile_cons, hfs, if_true]
        rw [dropWhile_eraseIdx isShared rest j hj]
    · -- an EXCLUSIVE head
      have hi0 : i = 0 := by
        simp only [grantedLen, hf, if_true] at hi
        omega
      subst hi0
      have hp : passLock (f :: rest) 0 = true := by simp [passLock, hf]
      simp only [hp, if_true, List.eraseIdx_cons_zero]
      rw [behind_cons_exclusive u f rest hf]
      cases rest with
      | nil => simp [turnOver, behind_nil]
      | cons b rest' =>
        rcases mode_cases b (hnu b (by simp)) with hb | hb
        · have hbx : b.mode_ ≠ EXCLUSIVE := by rw [hb]; decide
          have hfe : frontExclusive (b :: rest') = false := by
            simp [frontExclusive, hb]
          rw [hfe, turnOver_false_count _ _ _ hrest, behind_cons_other u b _ hbx]
          have hsum := countP_takeWhile_add_dropWhile isShared
            (fun x => decide (x.txn_ = u)) (b :: rest')
          omega
        · have hfe : frontExclusive (b :: rest') = true := by
            simp [frontExclusive, hb]
          rw [hfe, turnOver_true_exclusive b rest' st hb, grantOne_count,
            behind_cons_exclusive u b _ hb]
          simp only [List.countP_cons]
          by_cases hu : u = b.txn_
          · subst hu; simp
          · have hu' : ¬ b.txn_ = u := fun e => hu e.symm
            simp [hu, hu']

theorem totalBehind_tableSet (u : Txn) (tbl : List (Key × Queue)) (k : Key) (q' : Queue) :
    totalBehind u (tableSet tbl k q') + behind u ((tableGet tbl k).getD [])
      = totalBehind u tbl + behind u q' := by
  induction tbl with
  | nil => simp [tableSet, tableGet, totalBehind, behind_nil]
  | cons p rest ih =>
    obtain ⟨k0, q0⟩ := p
    by_cases h0 : k0 = k
    · simp only [tableSet, tableGet, h0, if_true, totalBehind, List.map_cons, List.sum_cons,
        Option.getD_some]
      omega
    · simp only [tableSet, tableGet, h0, if_false, totalBehind, List.map_cons,
        List.sum_cons] at ih ⊢
      omega

theorem totalBehind_ensureQueue (u : Txn) (tbl : List (Key × Queue)) (k : Key) :
    totalBehind u (ensureQueue tbl k) = totalBehind u tbl := by
  unfold ensureQueue
  cases h : tableGet tbl k with
  | none =>
    have := totalBehind_tableSet u tbl k []
    simp only [h, Option.getD_none, behind_nil] at this
    simpa using this
  | some q => rfl

theorem behind_le_totalBehind (u : Txn) (tbl : List (Key × Queue)) (k : Key) :
    behind u ((tableGet tbl k).getD []) ≤ totalBehind u tbl := by
  induction tbl with
  | nil => simp [tableGet, behind_nil]
  | cons p rest ih =>
    obtain ⟨k0, q0⟩ := p
    by_cases h0 : k0 = k
    · simp [tableGet, h0, totalBehind]
    · simp only [tableGet, h0, if_false, totalBehind, List.map_cons, List.sum_cons] at ih ⊢
      omega

theorem WriteLock_lock_table (s : LockManagerB) (txn : Txn) (key : Key) :
    (WriteLock s txn key).2.lock_table_ =
      tableSet (ensureQueue s.lock_table_ key) key
        (s.queue key ++ [LockRequest.mk EXCLUSIVE txn]) := by
  unfold WriteLock
  simp only [tableGet_ensureQueue, if_true, Option.getD_some, LockManagerB.queue]
  split <;> rfl

theorem ReadLock_lock_table (s : LockManagerB) (txn : Txn) (key : Key) :
    (ReadLock s txn key).2.lock_table_ =
      tableSet (ensureQueue s.lock_table_ key) key
        (s.queue key ++ [LockRequest.mk SHARED txn]) := by
  unfold ReadLock
  simp only [tableGet_ensureQueue, if_true, Option.getD_some, LockManagerB.queue]
  split <;> rfl

/-- The entries behind the granted parts after a lock request: those before,
and the new request when it is not granted. -/
theorem totalBehind_append (u : Txn) (tbl : List (Key × Queue)) (k : Key) (lr : LockRequest) :
    totalBehind u (tableSet (ensureQueue tbl k) k ((tableGet tbl k).getD [] ++ [lr]))
        + behind u ((tableGet tbl k).getD [])
      = totalBehind u tbl + behind u ((tableGet tbl k).getD [] ++ [lr]) := by
  have h := totalBehind_tableSet u (ensureQueue tbl k) k ((tableGet tbl k).getD [] ++ [lr])
  rw [tableGet_ensureQueue, totalBehind_ensureQueue] at h
  simpa using h

theorem countP_drop_pos_of_findTxn (t : Txn) (q : Queue) (g : Nat)
    (hg : g ≤ findTxn t q) (hlt : findTxn t q < q.length) :
    0 < (q.drop g).countP (fun x => decide (x.txn_ = t)) := by
  induction q generalizing g with
  | nil => simp [findTxn] at hlt
  | cons x xs ih =>
    by_cases hx : x.txn_ = t
    · simp only [findTxn, hx, if_true, Nat.le_zero] at hg
      subst hg
      simp [List.countP_cons, hx]
    · simp only [findTxn, hx, if_false, List.length_cons, Nat.add_lt_add_iff_right] at hg hlt
      cases g with
      | zero =>
        have := ih 0 (Nat.zero_le _) hlt
        simp only [List.drop_zero] at this
        simp [List.countP_cons, hx, this]
      | succ g =>
        simp only [List.drop_succ_cons]
        exact ih g (by omega) hlt

theorem findTxn_lt_grantedLen (t : Txn) (q : Queue) (hb : behind t q = 0)
    (hlt : findTxn t q < q.length) : findTxn t q < grantedLen q := by
  by_contra hge
  have := countP_drop_pos_of_findTxn t q (grantedLen q) (Nat.le_of_not_lt hge) hlt
  unfold behind at hb
  omega

theorem waitCount_bumpWait (w : Txn → Option Int) (t u : Txn) :
    (bumpWait w t u).getD 0 = (w u).getD 0 + (if t = u then 1 else 0) := by
  by_cases hu : u = t
  · subst hu; simp [bumpWait_self]
  · have hu' : ¬ t = u := fun e => hu e.symm
    simp [bumpWait_other _ _ _ hu, hu']

theorem ledger_writeLock (s : LockManagerB) (t : Txn) (k : Key)
    (hinv : ∀ u, s.waitCount u = (totalBehind u s.lock_table_ : Int)) (u : Txn) :
    (WriteLock s t k).2.waitCount u
      = (totalBehind u (WriteLock s t k).2.lock_table_ : Int) := by
  have htot := totalBehind_append u s.lock_table_ k (LockRequest.mk EXCLUSIVE t)
  have hu := hinv u
  rw [WriteLock_lock_table]
  unfold LockManagerB.waitCount at hu ⊢
  unfold LockManagerB.queue
  rw [WriteLock_waits, WriteLock_fst]
  unfold LockManagerB.queue
  cases hq : (tableGet s.lock_table_ k).getD [] with
  | nil =>
    rw [hq] at htot
    have hb : behind u ([] ++ [LockRequest.mk EXCLUSIVE t]) = 0 := by
      simp [behind_cons_exclusive]
    rw [hb, behind_nil] at htot
    simp only [decide_True, if_true]
    omega
  | cons f rest =>
    rw [hq] at htot
    have hg := grantedLen_append (f :: rest) (LockRequest.mk EXCLUSIVE t) (by simp)
      (Or.inl (by simp [isShared]))
    rw [behind_append u _ _ hg] at htot
    simp only [reduceCtorEq, decide_False, Bool.false_eq_true, if_false]
    rw [waitCount_bumpWait]
    by_cases htu : t = u
    · simp only [htu, if_true] at htot ⊢
      omega
    · simp only [htu, if_false] at htot ⊢
      omega

theorem ReadLock_fst_absent (s : LockManagerB) (t : Txn) (k : Key)
    (habs : ∀ lr ∈ s.queue k, lr.txn_ ≠ t) :
    (ReadLock s t k).1 = true ↔ ∀ lr ∈ s.queue k, lr.mode_ ≠ EXCLUSIVE := by
  rw [ReadLock_fst, readScan_iff, findTxn_append_absent t _ SHARED habs]
  simp

theorem ledger_readLock (s : LockManagerB) (t : Txn) (k : Key)
    (hinv : ∀ u, s.waitCount u = (totalBehind u s.lock_table_ : Int))
    (hnu : NoUnlocked s) (habs : ∀ lr ∈ s.queue k, lr.txn_ ≠ t) (u : Txn) :
    (ReadLock s t k).2.waitCount u
      = (totalBehind u (ReadLock s t k).2.lock_table_ : Int) := by
  have htot := totalBehind_append u s.lock_table_ k (LockRequest.mk SHARED t)
  have hu := hinv u
  have hiff := ReadLock_fst_absent s t k habs
  have hnuk := hnu k
  rw [ReadLock_lock_table]
  unfold LockManagerB.waitCount at hu ⊢
  rw [ReadLock_waits]
  unfold LockManagerB.queue at hiff hnuk ⊢
  by_cases hr : (ReadLock s t k).1 = true
  · have hall : ∀ x ∈ (tableGet s.lock_table_ k).getD [], x.mode_ = SHARED := by
      intro x hx
      rcases mode_cases x (hnuk x hx) with h | h
      · exact h
      · exact absurd h (hiff.mp hr x hx)
    have hall' : ∀ x ∈ (tableGet s.lock_table_ k).getD [] ++ [LockRequest.mk SHARED t],
        x.mode_ = SHARED := by
      intro x hx
      rcases List.mem_append.mp hx with h | h
      · exact hall x h
      · rw [List.mem_singleton.mp h]
    rw [behind_all_shared u _ hall, behind_all_shared u _ hall'] at htot
    simp only [hr, if_true]
    omega
  · have hex : ∃ x ∈ (tableGet s.lock_table_ k).getD [], isShared x = false := by
      by_contra hno
      apply hr
      rw [hiff]
      intro lr hlr hm
      exact hno ⟨lr, hlr, by simp [isShared, hm]⟩
    have hne : (tableGet s.lock_table_ k).getD [] ≠ [] := by
      obtain ⟨x, hx, _⟩ := hex
      exact List.ne_nil_of_mem hx
    have hg := grantedLen_append _ (LockRequest.mk SHARED t) hne (Or.inr hex)
    rw [behind_append u _ _ hg] at htot
    simp only [hr, Bool.false_eq_true, if_false]
    rw [waitCount_bumpWait]
    by_cases htu : t = u
    · simp only [htu, if_true] at htot ⊢
      omega
    · simp only [htu, if_false] at htot ⊢
      omega

theorem ledger_release (s s' : LockManagerB) (t : Txn) (k : Key)
    (hinv : ∀ u, s.waitCount u = (totalBehind u s.lock_table_ : Int))
    (hnu : NoUnlocked s) (hzero : s.waitCount t = 0)
    (hrel : Release s t k = Except.ok s') (u : Txn) :
    s'.waitCount u = (totalBehind u s'.lock_table_ : Int) := by
  obtain ⟨locks, hq, hi⟩ := Release_ok_inv s s' t k hrel
  obtain ⟨s2, h2, htbl, hst⟩ := Release_ok s t k locks hq hi
  rw [hrel] at h2
  cases h2
  have hqueue : s.queue k = locks := by simp [LockManagerB.queue, hq]
  have hnuk : ∀ x ∈ locks, x.mode_ ≠ UNLOCKED := by
    have := hnu k
    rwa [hqueue] at this
  have hbt : behind t locks = 0 := by
    have hle := behind_le_totalBehind t s.lock_table_ k
    rw [hq] at hle
    have ht := hinv t
    rw [hzero] at ht
    simp only [Option.getD_some] at hle
    omega
  have hig := findTxn_lt_grantedLen t locks hbt hi
  have hcount := release_queue_count locks (findTxn t locks)
    (eraseWait s.txn_waits_ t, s.ready_txns_) u hnuk hig
  have htot := totalBehind_tableSet u s.lock_table_ k (locks.eraseIdx (findTxn t locks))
  rw [hq] at htot
  simp only [Option.getD_some] at htot
  have herase : (eraseWait s.txn_waits_ t u).getD 0 = s.waitCount u := by
    rw [eraseWait_apply]
    by_cases hut : u = t
    · subst hut; simp [hzero]
    · simp [hut, LockManagerB.waitCount]
  have hw : s'.txn_waits_ = (if passLock locks (findTxn t locks) = true then
      turnOver (frontExclusive (locks.eraseIdx (findTxn t locks)))
        (locks.eraseIdx (findTxn t locks)) (eraseWait s.txn_waits_ t, s.ready_txns_)
      else (eraseWait s.txn_waits_ t, s.ready_txns_)).1 := congrArg Prod.fst hst
  have hu := hinv u
  unfold LockManagerB.waitCount at hu ⊢
  rw [hw, htbl]
  simp only [] at hcount herase
  unfold LockManagerB.waitCount at herase
  omega

theorem WriteLock_queue (s : LockManagerB) (t : Txn) (k k' : Key) :
    (WriteLock s t k).2.queue k' =
      if k' = k then s.queue k ++ [LockRequest.mk EXCLUSIVE t] else s.queue k' := by
  unfold LockManagerB.queue
  rw [WriteLock_table]
  by_cases hk : k' = k
  · simp [hk, LockManagerB.queue]
  · simp [hk]

theorem ReadLock_queue (s : LockManagerB) (t : Txn) (k k' : Key) :
    (ReadLock s t k).2.queue k' =
      if k' = k then s.queue k ++ [LockRequest.mk SHARED t] else s.queue k' := by
  unfold LockManagerB.queue
  rw [ReadLock_table]
  by_cases hk : k' = k
  · simp [hk, LockManagerB.queue]
  · simp [hk]

theorem Release_queue (s s' : LockManagerB) (t : Txn) (k k' : Key)
    (h : Release s t k = Except.ok s') :
    s'.queue k' =
      if k' = k then (s.queue k).eraseIdx (findTxn t (s.queue k)) else s.queue k' := by
  unfold LockManagerB.queue
  rw [Release_table s s' t k k' h]
  by_cases hk : k' = k
  · simp [hk, LockManagerB.queue]
  · simp [hk]

theorem noUnlocked_fresh (ready : List Txn) : NoUnlocked (LockManagerB.fresh ready) := by
  intro k x hx
  simp [LockManagerB.queue, LockManagerB.fresh, tableGet] at hx

theorem noUnlocked_writeLock (s : LockManagerB) (t : Txn) (k : Key) (h : NoUnlocked s) :
    NoUnlocked (WriteLock s t k).2 := by
  intro k' x hx
  rw [WriteLock_queue] at hx
  by_cases hk : k' = k
  · simp only [hk, if_true] at hx
    rcases List.mem_append.mp hx with h1 | h1
    · exact h k x h1
    · rw [List.mem_singleton.mp h1]; simp
  · simp only [hk, if_false] at hx
    exact h k' x hx

theorem noUnlocked_readLock (s : LockManagerB) (t : Txn) (k : Key) (h : NoUnlocked s) :
    NoUnlocked (ReadLock s t k).2 := by
  intro k' x hx
  rw [ReadLock_queue] at hx
  by_cases hk : k' = k
  · simp only [hk, if_true] at hx
    rcases List.mem_append.mp hx with h1 | h1
    · exact h k x h1
    · rw [List.mem_singleton.mp h1]; simp
  · simp only [hk, if_false] at hx
    exact h k' x hx

theorem noUnlocked_release (s s' : LockManagerB) (t : Txn) (k : Key) (h : NoUnlocked s)
    (hrel : Release s t k = Except.ok s') : NoUnlocked s' := by
  intro k' x hx
  rw [Release_queue s s' t k k' hrel] at hx
  by_cases hk : k' = k
  · simp only [hk, if_true] at hx
    exact h k x (List.mem_of_mem_eraseIdx hx)
  · simp only [hk, if_false] at hx
    exact h k' x hx

/-- The ledger invariant of disciplined runs, with the auxiliary fact that
requests are SHARED or EXCLUSIVE. -/
theorem held_invariant (s : LockManagerB) (h : ReachableHeld s) :
    NoUnlocked s ∧ ∀ u, s.waitCount u = (totalBehind u s.lock_table_ : Int) := by
  induction h with
  | fresh ready =>
    exact ⟨noUnlocked_fresh ready, fun u => by
      simp [LockManagerB.waitCount, LockManagerB.fresh, totalBehind]⟩
  | readLock s t k _ habs ih =>
    exact ⟨noUnlocked_readLock s t k ih.1, ledger_readLock s t k ih.2 ih.1 habs⟩
  | writeLock s t k _ ih =>
    exact ⟨noUnlocked_writeLock s t k ih.1, ledger_writeLock s t k ih.2⟩
  | release s s' t k _ _ hzero hrel ih =>
    exact ⟨noUnlocked_release s s' t k ih.1 hrel, ledger_release s s' t k ih.2 ih.1 hzero hrel⟩

/-- C1, what fails, at two states reachable from a fresh manager. After
`WriteLock(1, 0)` and `ReadLock(1, 0)` the queue of key `0` is `[EXCLUSIVE(1),
SHARED(1)]`: the read was answered `true`, so `1` has no ledger entry although
its SHARED entry lies behind the granted part. And after `1` and then `2` have
write-locked keys `0` and `1`, `Release(2, 0)` erases the ledger entry of `2`
although its request on key `1` still waits. -/
theorem C1_ledger_counterexample :
    (Reachable (ReadLock (WriteLock (LockManagerB.fresh []) 1 0).2 1 0).2 ∧
      (ReadLock (WriteLock (LockManagerB.fresh []) 1 0).2 1 0).2.waitCount 1 = 0 ∧
      totalBehind 1 (ReadLock (WriteLock (LockManagerB.fresh []) 1 0).2 1 0).2.lock_table_ = 1) ∧
    (∃ s', Release (WriteLock (WriteLock (WriteLock (WriteLock
          (LockManagerB.fresh []) 1 0).2 1 1).2 2 0).2 2 1).2 2 0 = Except.ok s' ∧
      Reachable s' ∧ s'.waitCount 2 = 0 ∧ totalBehind 2 s'.lock_table_ = 1) :=
  ⟨⟨Reachable.readLock _ 1 0 (Reachable.writeLock _ 1 0 (Reachable.fresh [])),
      by decide, by decide⟩,
    _, rfl,
    Reachable.release _ _ 2 0
      (Reachable.writeLock _ 2 1 (Reachable.writeLock _ 2 0
        (Reachable.writeLock _ 1 1 (Reachable.writeLock _ 1 0 (Reachable.fresh [])))))
      (by decide) rfl,
    by decide, by decide⟩

/-- C1, amended: in every state reached from a fresh manager by `ReadLock`,
`WriteLock` and `Release` calls in which each `ReadLock(t, k)` is made while `t`
has no request in the queue of `k`, and each `Release(t, k)` names a transaction
that has an entry in the queue of `k` and whose wait count is zero, the wait
count of every transaction (`0` without a ledger entry) equals the number of its
queue entries, summed over all keys, that lie strictly behind the granted part
of their queue. -/
theorem C1_ledger_counts_waiting (s : LockManagerB) (h : ReachableHeld s) (t : Txn) :
    s.waitCount t = (totalBehind t s.lock_table_ : Int) :=
  (held_invariant s h).2 t

/-- C1, the amended statement at a concrete run: `1` and `2` write-lock key `0`,
`3` reads it, `1` releases; the wait counts of `2` and `3` match their waiting
entries. -/
theorem C1_ledger_counts_waiting_witness :
    ∃ s', Release (ReadLock (WriteLock (WriteLock (LockManagerB.fresh []) 1 0).2 2 0).2 3 0).2 1 0
        = Except.ok s' ∧
      s'.waitCount 2 = (totalBehind 2 s'.lock_table_ : Int) ∧
      s'.waitCount 3 = (totalBehind 3 s'.lock_table_ : Int) ∧
      totalBehind 3 s'.lock_table_ = 1 :=
  ⟨_, rfl,
    C1_ledger_counts_waiting _
      (ReachableHeld.release _ _ 1 0
        (ReachableHeld.readLock _ 3 0
          (ReachableHeld.writeLock _ 2 0
            (ReachableHeld.writeLock _ 1 0 (ReachableHeld.fresh []))) (by decide))
        (by decide) (by decide) rfl) 2,
    C1_ledger_counts_waiting _
      (ReachableHeld.release _ _ 1 0
        (ReachableHeld.readLock _ 3 0
          (ReachableHeld.writeLock _ 2 0
            (ReachableHeld.writeLock _ 1 0 (ReachableHeld.fresh []))) (by decide))
        (by decide) (by decide) rfl) 3,
    by decide⟩

/-! ## The fatal path -/

theorem step_keeps_absent (s s' : LockManagerB) (op : Op) (key : Key)
    (hop : ∀ t, op ≠ Op.readLock t key ∧ op ≠ Op.writeLock t key)
    (hq : tableGet s.lock_table_ key = none)
    (hs : step s op = Except.ok s') :
    tableGet s'.lock_table_ key = none := by
  cases op with
  | readLock t k =>
    simp only [step, Except.ok.injEq] at hs
    subst hs
    have hk : key ≠ k := by
      intro e; subst e; exact (hop t).1 rfl
    rw [ReadLock_table]
    simp [hk, hq]
  | writeLock t k =>
    simp only [step, Except.ok.injEq] at hs
    subst hs
    have hk : key ≠ k := by
      intro e; subst e; exact (hop t).2 rfl
    rw [WriteLock_table]
    simp [hk, hq]
  | release t k =>
    simp only [step] at hs
    have hk : key ≠ k := by
      intro e
      subst e
      obtain ⟨locks, hl, _⟩ := Release_ok_inv s s' t key hs
      rw [hq] at hl
      exact absurd hl (by simp)
    rw [Release_table s s' t k key hs]
    simp [hk, hq]

theorem run_keeps_absent (ops : List Op) (s s' : LockManagerB) (key : Key)
    (hops : ∀ op ∈ ops, ∀ t, op ≠ Op.readLock t key ∧ op ≠ Op.writeLock t key)
    (hq : tableGet s.lock_table_ key = none)
    (hr : run s ops = Except.ok s') :
    tableGet s'.lock_table_ key = none := by
  induction ops generalizing s with
  | nil =>
    simp only [run, Except.ok.injEq] at hr
    subst hr
    exact hq
  | cons op ops ih =>
    simp only [run] at hr
    cases hstep : step s op with
    | error e => simp [hstep] at hr
    | ok s1 =>
      simp only [hstep] at hr
      exact ih s1 (fun o ho => hops o (List.mem_cons_of_mem _ ho))
        (step_keeps_absent s s1 op key (hops op (List.mem_cons_self _ _)) hq hstep) hr

/-- C11: on a key absent from the lock table, `Release(txn, key)` and
`Status(key, owners)` both end in the fatal result `DIE` instead of returning;
the check is the first statement of either method, and the result carries no
written table, ledger, ready deque or owners. A key is absent in every state
reached from a fresh manager by calls among which no `ReadLock` or `WriteLock`
names it. -/
theorem C11_absent_key_dies :
    (∀ (s : LockManagerB) (txn : Txn) (key : Key) (owners : List Txn),
      tableGet s.lock_table_ key = none →
      Release s txn key = Except.error Fault.DIE ∧
      Status s key owners = Except.error Fault.DIE) ∧
    (∀ (ready : List Txn) (ops : List Op) (s : LockManagerB) (txn : Txn) (key : Key)
      (owners : List Txn),
      (∀ op ∈ ops, ∀ t, op ≠ Op.readLock t key ∧ op ≠ Op.writeLock t key) →
      run (LockManagerB.fresh ready) ops = Except.ok s →
      Release s txn key = Except.error Fault.DIE ∧
      Status s key owners = Except.error Fault.DIE) := by
  have h1 : ∀ (s : LockManagerB) (txn : Txn) (key : Key) (owners : List Txn),
      tableGet s.lock_table_ key = none →
      Release s txn key = Except.error Fault.DIE ∧
      Status s key owners = Except.error Fault.DIE := by
    intro s txn key owners hq
    simp [Release, Status, hq]
  refine ⟨h1, ?_⟩
  intro ready ops s txn key owners hops hrun
  exact h1 s txn key owners
    (run_keeps_absent ops (LockManagerB.fresh ready) s key hops rfl hrun)

/-- C11 at a concrete run: after requests on key `0` only, a release and a
status query on key `1` both end in `DIE`. -/
theorem C11_absent_key_dies_witness :
    Release (WriteLock (LockManagerB.fresh []) 1 0).2 1 1 = Except.error Fault.DIE ∧
    Status (WriteLock (LockManagerB.fresh []) 1 0).2 1 [] = Except.error Fault.DIE :=
  C11_absent_key_dies.2 [] [Op.writeLock 1 0] (WriteLock (LockManagerB.fresh []) 1 0).2 1 1 []
    (by
      intro op hop t
      rw [List.mem_singleton.mp hop]
      exact ⟨by simp, by simp⟩) rfl

/-- C12, what the code does: when `key` is present but its queue holds no
request of `txn`, the search of `Release(txn, key)` ends at `end()` and the
method goes on to dereference or erase that position; it does not reach `DIE`,
although step 3 of its own pseudocode asks for it. -/
theorem C12_release_without_entry (s : LockManagerB) (txn : Txn) (key : Key) (q : Queue)
    (hq : tableGet s.lock_table_ key = some q)
    (hno : ∀ lr ∈ q, lr.txn_ ≠ txn) :
    Release s txn key = Except.error Fault.UNDEFINED ∧
    Release s txn key ≠ Except.error Fault.DIE := by
  have hlen : q.length ≤ findTxn txn q := by
    by_contra hlt
    obtain ⟨lr, hlr, ht⟩ := (findTxn_lt_iff txn q).mp (Nat.lt_of_not_le hlt)
    exact hno lr hlr ht
  have h : Release s txn key = Except.error Fault.UNDEFINED := by
    simp [Release, hq, hlen]
  exact ⟨h, by rw [h]; simp⟩

/-- C12 at the failing input: with the queue `[EXCLUSIVE(1)]` on key `0`,
`Release(2, 0)` is undefined behaviour, not `DIE`. -/
theorem C12_release_without_entry_witness :
    Release (WriteLock (LockManagerB.fresh []) 1 0).2 2 0 = Except.error Fault.UNDEFINED ∧
    Release (WriteLock (LockManagerB.fresh []) 1 0).2 2 0 ≠ Except.error Fault.DIE :=
  C12_release_without_entry (WriteLock (LockManagerB.fresh []) 1 0).2 2 0
    [LockRequest.mk EXCLUSIVE 1] (by decide) (by decide)

/-! ## The exclusive-only manager -/

/-- C13, what the code does: `LockManagerA::WriteLock` is an unimplemented
placeholder that answers `true` to every call, so on a fresh manager the second
`WriteLock(t2, k)` and `ReadLock(t2, k)` after `WriteLock(t1, k)` are answered
`true` as well, the table stays empty and `t2` gets no ledger entry. -/
theorem C13_variantA_grants_everything (ready : List Txn) (t1 t2 : Txn) (k : Key) :
    (LockManagerA.WriteLock (LockManagerA.fresh ready) t1 k).1 = true ∧
    (LockManagerA.WriteLock
        (LockManagerA.WriteLock (LockManagerA.fresh ready) t1 k).2 t2 k).1 = true ∧
    (LockManagerA.ReadLock
        (LockManagerA.WriteLock (LockManagerA.fresh ready) t1 k).2 t2 k).1 = true ∧
    (LockManagerA.WriteLock
        (LockManagerA.WriteLock (LockManagerA.fresh ready) t1 k).2 t2 k).2.txn_waits_ t2
      = none ∧
    (LockManagerA.WriteLock
        (LockManagerA.WriteLock (LockManagerA.fresh ready) t1 k).2 t2 k).2.lock_table_ = [] :=
  ⟨rfl, rfl, rfl, rfl, rfl⟩

/-- C14, what the code does: `LockManagerA::Status` is an unimplemented
placeholder that answers UNLOCKED and leaves `owners` alone, both after
`WriteLock(t, k)` on a fresh manager and on a key that was never referenced,
where it returns normally instead of ending in `DIE`. -/
theorem C14_variantA_status_unlocked (ready : List Txn) (t : Txn) (k : Key) :
    LockManagerA.Status (LockManagerA.WriteLock (LockManagerA.fresh ready) t k).2 k []
      = Except.ok (UNLOCKED, [], (LockManagerA.WriteLock (LockManagerA.fresh ready) t k).2) ∧
    LockManagerA.Status (LockManagerA.fresh ready) k []
      = Except.ok (UNLOCKED, [], LockManagerA.fresh ready) :=
  ⟨rfl, rfl⟩

/-! ## Frame and order -/

theorem request_present (s : LockManagerB) (txn : Txn) (key : Key)
    (h : ∃ lr ∈ s.queue key, lr.txn_ = txn) :
    tableGet s.lock_table_ key = some (s.queue key) ∧
      findTxn txn (s.queue key) < (s.queue key).length := by
  refine ⟨?_, (findTxn_lt_iff txn _).mpr h⟩
  obtain ⟨lr, hlr, _⟩ := h
  unfold LockManagerB.queue at hlr ⊢
  cases hq : tableGet s.lock_table_ key with
  | none => simp [hq] at hlr
  | some q => simp

theorem turnOver_cons_cases (e : Bool) (lr : LockRequest) (rest : Queue)
    (st : (Txn → Option Int) × List Txn) :
    turnOver e (lr :: rest) st = st ∨
    turnOver e (lr :: rest) st = grantOne st lr.txn_ ∨
    turnOver e (lr :: rest) st = turnOver e rest (grantOne st lr.txn_) ∨
    turnOver e (lr :: rest) st = turnOver e rest st := by
  have heq : turnOver e (lr :: rest) st =
      (if lr.mode_ = EXCLUSIVE ∧ e = true then grantOne st lr.txn_
       else if lr.mode_ = EXCLUSIVE then st
       else if lr.mode_ = SHARED ∧ e = true then st
       else if lr.mode_ = SHARED ∧ e = false then turnOver e rest (grantOne st lr.txn_)
       else turnOver e rest st) := rfl
  rw [heq]
  split_ifs <;> simp

theorem grantOne_added (st : (Txn → Option Int) × List Txn) (t : Txn) :
    ∃ added, (grantOne st t).2 = st.2 ++ added := by
  rw [grantOne_ready]
  by_cases hz : (st.1 t).getD 0 - 1 = 0
  · exact ⟨[t], by simp [hz]⟩
  · exact ⟨[], by simp [hz]⟩

/-- The turn-over loop only appends to the ready deque. -/
theorem turnOver_added (e : Bool) (l : Queue) (st : (Txn → Option Int) × List Txn) :
    ∃ added, (turnOver e l st).2 = st.2 ++ added := by
  induction l generalizing st with
  | nil => exact ⟨[], by simp [turnOver]⟩
  | cons lr rest ih =>
    rcases turnOver_cons_cases e lr rest st with h | h | h | h
    · exact ⟨[], by rw [h]; simp⟩
    · rw [h]; exact grantOne_added st lr.txn_
    · obtain ⟨a1, h1⟩ := grantOne_added st lr.txn_
      obtain ⟨a2, h2⟩ := ih (grantOne st lr.txn_)
      exact ⟨a1 ++ a2, by rw [h, h2, h1, List.append_assoc]⟩
    · rw [h]; exact ih st

theorem Release_added (s s' : LockManagerB) (txn : Txn) (key : Key)
    (hrel : Release s txn key = Except.ok s') :
    ∃ added, s'.ready_txns_ = s.ready_txns_ ++ added := by
  obtain ⟨locks, hq, hi⟩ := Release_ok_inv s s' txn key hrel
  obtain ⟨s2, h2, _, hst⟩ := Release_ok s txn key locks hq hi
  rw [hrel] at h2
  cases h2
  have hr := congrArg Prod.snd hst
  simp only [] at hr
  rw [hr]
  by_cases hp : passLock locks (findTxn txn locks) = true
  · simp only [hp, if_true]
    exact turnOver_added _ _ _
  · simp only [hp, if_false]
    exact ⟨[], by simp⟩

theorem Status_manager (s : LockManagerB) (key : Key) (owners : List Txn)
    (r : LockMode × List Txn × LockManagerB)
    (h : Status s key owners = Except.ok r) : r.2.2 = s := by
  unfold Status at h
  cases hq : tableGet s.lock_table_ key with
  | none => simp [hq] at h
  | some locks =>
    cases locks with
    | nil =>
      simp only [hq, Except.ok.injEq] at h
      rw [← h]
    | cons f rest =>
      simp only [hq] at h
      split at h
      · simp only [Except.ok.injEq] at h
        rw [← h]
      · simp only [Except.ok.injEq] at h
        rw [← h]

/-- C15: the ready deque is append-only. `WriteLock`, `ReadLock` and `Status`
leave it exactly as it was, and after a `Release` that returns, the deque
before the call is a leading part of the deque after it. -/
theorem C15_ready_append_only :
    (∀ (s : LockManagerB) (txn : Txn) (key : Key),
      (WriteLock s txn key).2.ready_txns_ = s.ready_txns_ ∧
      (ReadLock s txn key).2.ready_txns_ = s.ready_txns_) ∧
    (∀ (s : LockManagerB) (key : Key) (owners : List Txn)
      (r : LockMode × List Txn × LockManagerB),
      Status s key owners = Except.ok r → r.2.2.ready_txns_ = s.ready_txns_) ∧
    (∀ (s s' : LockManagerB) (txn : Txn) (key : Key),
      Release s txn key = Except.ok s' →
      ∃ added, s'.ready_txns_ = s.ready_txns_ ++ added) := by
  refine ⟨fun s txn key => ⟨WriteLock_ready s txn key, ReadLock_ready s txn key⟩, ?_, ?_⟩
  · intro s key owners r h
    rw [Status_manager s key owners r h]
  · intro s s' txn key h
    exact Release_added s s' txn key h

/-- C15 at a concrete run: the release of `1` from `[EXCLUSIVE(1),
EXCLUSIVE(2)]` extends a ready deque that held `[7]` at construction. -/
theorem C15_ready_append_only_witness :
    ∃ s' added,
      Release (WriteLock (WriteLock (LockManagerB.fresh [7]) 1 0).2 2 0).2 1 0 = Except.ok s' ∧
      s'.ready_txns_ = [7] ++ added := by
  obtain ⟨added, h⟩ := C15_ready_append_only.2.2
    (WriteLock (WriteLock (LockManagerB.fresh [7]) 1 0).2 2 0).2 _ 1 0 rfl
  exact ⟨_, added, rfl, h⟩

theorem eraseIdx_findTxn_split (txn : Txn) (q : Queue) (h : findTxn txn q < q.length) :
    ∃ pre lr post, q = pre ++ lr :: post ∧ lr.txn_ = txn ∧
      (∀ x ∈ pre, x.txn_ ≠ txn) ∧ q.eraseIdx (findTxn txn q) = pre ++ post := by
  induction q with
  | nil => simp [findTxn] at h
  | cons x xs ih =>
    by_cases hx : x.txn_ = txn
    · exact ⟨[], x, xs, by simp, hx, by simp, by simp [findTxn, hx]⟩
    · simp only [findTxn, hx, if_false, List.length_cons, Nat.add_lt_add_iff_right] at h
      obtain ⟨pre, lr, post, h1, h2, h3, h4⟩ := ih h
      refine ⟨x :: pre, lr, post, by rw [h1]; simp, h2, ?_, ?_⟩
      · intro y hy
        rcases List.mem_cons.mp hy with e | hy'
        · rw [e]; exact hx
        · exact h3 y hy'
      · simp [findTxn, hx, h4]

/-- C20: the operations are local to their key and keep the order of arrival.
`WriteLock`, `ReadLock` and `Release` on `key` leave the table entry of every
other key as it was; the two lock requests leave the earlier entries of `key`
in place with the new request last; `Release(txn, key)` with `txn` present
returns and leaves the queue without exactly the first request of `txn`, all
others in their order; `Status` hands back the manager it was given. -/
theorem C20_local_and_ordered :
    (∀ (s : LockManagerB) (txn : Txn) (key k : Key), k ≠ key →
      tableGet (WriteLock s txn key).2.lock_table_ k = tableGet s.lock_table_ k ∧
      tableGet (ReadLock s txn key).2.lock_table_ k = tableGet s.lock_table_ k) ∧
    (∀ (s s' : LockManagerB) (txn : Txn) (key k : Key), k ≠ key →
      Release s txn key = Except.ok s' →
      tableGet s'.lock_table_ k = tableGet s.lock_table_ k) ∧
    (∀ (s : LockManagerB) (txn : Txn) (key : Key),
      tableGet (WriteLock s txn key).2.lock_table_ key
        = some (s.queue key ++ [LockRequest.mk EXCLUSIVE txn]) ∧
      tableGet (ReadLock s txn key).2.lock_table_ key
        = some (s.queue key ++ [LockRequest.mk SHARED txn])) ∧
    (∀ (s : LockManagerB) (txn : Txn) (key : Key),
      (∃ lr ∈ s.queue key, lr.txn_ = txn) →
      ∃ s' pre lr post, Release s txn key = Except.ok s' ∧
        s.queue key = pre ++ lr :: post ∧ lr.txn_ = txn ∧
        (∀ x ∈ pre, x.txn_ ≠ txn) ∧
        tableGet s'.lock_table_ key = some (pre ++ post)) ∧
    (∀ (s : LockManagerB) (key : Key) (owners : List Txn)
      (r : LockMode × List Txn × LockManagerB),
      Status s key owners = Except.ok r → r.2.2 = s) := by
  refine ⟨?_, ?_, ?_, ?_, ?_⟩
  · intro s txn key k hk
    simp [WriteLock_table, ReadLock_table, hk]
  · intro s s' txn key k hk hrel
    rw [Release_table s s' txn key k hrel]
    simp [hk]
  · intro s txn key
    simp [WriteLock_table, ReadLock_table]
  · intro s txn key hreq
    obtain ⟨hq, hi⟩ := request_present s txn key hreq
    obtain ⟨s', hrel, _, _⟩ := Release_ok s txn key _ hq hi
    obtain ⟨pre, lr, post, h1, h2, h3, h4⟩ := eraseIdx_findTxn_split txn _ hi
    refine ⟨s', pre, lr, post, hrel, h1, h2, h3, ?_⟩
    rw [Release_table s s' txn key key hrel]
    simp [h4]
  · intro s key owners r h
    exact Status_manager s key owners r h

/-- C20 at a concrete run: releasing `2` from `[SHARED(1), SHARED(2),
EXCLUSIVE(3)]` leaves `[SHARED(1), EXCLUSIVE(3)]`. -/
theorem C20_local_and_ordered_witness :
    ∃ s' pre lr post,
      Release (WriteLock (ReadLock (ReadLock (LockManagerB.fresh []) 1 0).2 2 0).2 3 0).2 2 0
        = Except.ok s' ∧
      (WriteLock (ReadLock (ReadLock (LockManagerB.fresh []) 1 0).2 2 0).2 3 0).2.queue 0
        = pre ++ lr :: post ∧ lr.txn_ = 2 ∧ (∀ x ∈ pre, x.txn_ ≠ 2) ∧
      tableGet s'.lock_table_ 0 = some (pre ++ post) :=
  C20_local_and_ordered.2.2.2.1
    (WriteLock (ReadLock (ReadLock (LockManagerB.fresh []) 1 0).2 2 0).2 3 0).2 2 0 (by decide)

/-! ## Release of a SHARED head -/

/-- A release at the head that finds an EXCLUSIVE request next in line runs one
grant, for that request. -/
theorem release_head_before_exclusive (s : LockManagerB) (f : LockRequest) (b : Txn)
    (key : Key) (rest : Queue)
    (hq : tableGet s.lock_table_ key = some (f :: LockRequest.mk EXCLUSIVE b :: rest))
    (hm : f.mode_ = EXCLUSIVE ∨ f.mode_ = SHARED) :
    ∃ s', Release s f.txn_ key = Except.ok s' ∧
      tableGet s'.lock_table_ key = some (LockRequest.mk EXCLUSIVE b :: rest) ∧
      (s'.txn_waits_, s'.ready_txns_)
        = grantOne (eraseWait s.txn_waits_ f.txn_, s.ready_txns_) b := by
  have hfind : findTxn f.txn_ (f :: LockRequest.mk EXCLUSIVE b :: rest) = 0 := by
    simp [findTxn]
  obtain ⟨s', hrel, htbl, hst⟩ := Release_ok s f.txn_ key _ hq (by rw [hfind]; simp)
  have hpass : passLock (f :: LockRequest.mk EXCLUSIVE b :: rest) 0 = true := by
    rcases hm with h | h <;> simp [passLock, h]
  rw [hfind] at hst htbl
  simp only [hpass, if_true, List.eraseIdx_cons_zero, frontExclusive, decide_True,
    turnOver_true_exclusive (LockRequest.mk EXCLUSIVE b) rest _ rfl] at hst
  refine ⟨s', hrel, ?_, hst⟩
  rw [htbl, tableGet_tableSet]
  simp

/-- A release that does not pass the lock on only erases the entry and the
ledger entry of the releasing transaction. -/
theorem release_without_handoff (s : LockManagerB) (txn : Txn) (key : Key) (locks : Queue)
    (hq : tableGet s.lock_table_ key = some locks)
    (hi : findTxn txn locks < locks.length)
    (hp : passLock locks (findTxn txn locks) = false) :
    ∃ s', Release s txn key = Except.ok s' ∧
      s'.ready_txns_ = s.ready_txns_ ∧ s'.txn_waits_ txn = none ∧
      ∀ t, t ≠ txn → s'.txn_waits_ t = s.txn_waits_ t := by
  obtain ⟨s', hrel, _, hst⟩ := Release_ok s txn key locks hq hi
  simp only [hp, Bool.false_eq_true, if_false, Prod.mk.injEq] at hst
  refine ⟨s', hrel, hst.2, ?_, ?_⟩
  · rw [hst.1, eraseWait_apply]; simp
  · intro t ht
    rw [hst.1, eraseWait_apply]; simp [ht]

/-- C16: the release of a SHARED head looks at its successor. With the queue
`SHARED(a) :: EXCLUSIVE(b) :: rest` and `a ≠ b`, `Release(a, key)` lowers the
wait count of `b` by exactly one and appends `b` to the ready deque exactly when
the count reaches zero. With `SHARED(a) :: SHARED(c) :: rest`, or with
`SHARED(a)` alone, it appends nothing and changes no ledger entry except that
the entry of `a` is removed. -/
theorem C16_shared_head_release :
    (∀ (s : LockManagerB) (a b : Txn) (key : Key) (rest : Queue),
      tableGet s.lock_table_ key
        = some (LockRequest.mk SHARED a :: LockRequest.mk EXCLUSIVE b :: rest) →
      a ≠ b →
      ∃ s', Release s a key = Except.ok s' ∧
        s'.waitCount b = s.waitCount b - 1 ∧
        (s.waitCount b - 1 = 0 → s'.ready_txns_ = s.ready_txns_ ++ [b]) ∧
        (s.waitCount b - 1 ≠ 0 → s'.ready_txns_ = s.ready_txns_)) ∧
    (∀ (s : LockManagerB) (a c : Txn) (key : Key) (rest : Queue),
      tableGet s.lock_table_ key
        = some (LockRequest.mk SHARED a :: LockRequest.mk SHARED c :: rest) →
      ∃ s', Release s a key = Except.ok s' ∧
        s'.ready_txns_ = s.ready_txns_ ∧ s'.txn_waits_ a = none ∧
        ∀ t, t ≠ a → s'.txn_waits_ t = s.txn_waits_ t) ∧
    (∀ (s : LockManagerB) (a : Txn) (key : Key),
      tableGet s.lock_table_ key = some [LockRequest.mk SHARED a] →
      ∃ s', Release s a key = Except.ok s' ∧
        s'.ready_txns_ = s.ready_txns_ ∧ s'.txn_waits_ a = none ∧
        ∀ t, t ≠ a → s'.txn_waits_ t = s.txn_waits_ t) := by
  refine ⟨?_, ?_, ?_⟩
  · intro s a b key rest hq hab
    obtain ⟨s', hrel, _, hst⟩ :=
      release_head_before_exclusive s (LockRequest.mk SHARED a) b key rest hq (Or.inr rfl)
    have hba : ¬ b = a := fun e => hab e.symm
    have hw : s'.txn_waits_ = (grantOne (eraseWait s.txn_waits_ a, s.ready_txns_) b).1 :=
      congrArg Prod.fst hst
    have hr : s'.ready_txns_ = (grantOne (eraseWait s.txn_waits_ a, s.ready_txns_) b).2 :=
      congrArg Prod.snd hst
    have hb : (eraseWait s.txn_waits_ a b).getD 0 = s.waitCount b := by
      simp [eraseWait_apply, hba, LockManagerB.waitCount]
    refine ⟨s', hrel, ?_, ?_, ?_⟩
    · unfold LockManagerB.waitCount
      rw [hw, grantOne_count]
      simp [eraseWait_apply, hba]
    · intro hz
      rw [hr, grantOne_ready]
      simp only [hb, hz, if_true]
    · intro hz
      rw [hr, grantOne_ready]
      simp only [hb, hz, if_false]
  · intro s a c key rest hq
    exact release_without_handoff s a key _ hq (by simp [findTxn])
      (by simp [findTxn, passLock])
  · intro s a key hq
    exact release_without_handoff s a key _ hq (by simp [findTxn])
      (by simp [findTxn, passLock])

/-- C16 at concrete runs: from `[SHARED(1), EXCLUSIVE(2)]` the release of `1`
readies `2`; from `[SHARED(1), SHARED(2)]` it readies nobody. -/
theorem C16_shared_head_release_witness :
    (∃ s', Release (WriteLock (ReadLock (LockManagerB.fresh []) 1 0).2 2 0).2 1 0
        = Except.ok s' ∧ s'.ready_txns_ = [2]) ∧
    (∃ s', Release (ReadLock (ReadLock (LockManagerB.fresh []) 1 0).2 2 0).2 1 0
        = Except.ok s' ∧ s'.ready_txns_ = []) := by
  obtain ⟨s1, h1, _, h3, _⟩ := C16_shared_head_release.1
    (WriteLock (ReadLock (LockManagerB.fresh []) 1 0).2 2 0).2 1 2 0 [] (by decide) (by decide)
  obtain ⟨s2, h4, h5, _⟩ := C16_shared_head_release.2.1
    (ReadLock (ReadLock (LockManagerB.fresh []) 1 0).2 2 0).2 1 2 0 [] (by decide)
  exact ⟨⟨s1, h1, h3 (by decide)⟩, ⟨s2, h4, h5⟩⟩

/-! ## Lock answers and releases against Status -/

theorem Status_cons (s : LockManagerB) (key : Key) (f : LockRequest) (rest : Queue)
    (hq : tableGet s.lock_table_ key = some (f :: rest)) :
    Status s key [] =
      if f.mode_ = EXCLUSIVE then Except.ok (EXCLUSIVE, [f.txn_], s)
      else Except.ok
        (SHARED, ((f :: rest).takeWhile isShared).map (fun x => x.txn_), s) := by
  unfold Status
  by_cases hm : f.mode_ = EXCLUSIVE
  · simp [hq, frontExclusive, hm]
  · simp only [hq, frontExclusive, hm, decide_False, Bool.false_eq_true, if_false]
    rw [statusLoop_eq]
    rfl

/-- A transaction with no entry in `q` owns the appended request exactly when
the whole of `q` passes the test of the leading run. -/
theorem mem_takeWhile_append_new (q : Queue) (lr : LockRequest)
    (hp : isShared lr = true) (habs : ∀ x ∈ q, x.txn_ ≠ lr.txn_) :
    lr.txn_ ∈ ((q ++ [lr]).takeWhile isShared).map (fun x => x.txn_)
      ↔ ∀ x ∈ q, isShared x = true := by
  constructor
  · intro hmem
    by_contra hno
    have hex : ∃ x ∈ q, isShared x = false := by
      by_contra hne
      apply hno
      intro x hx
      by_contra hfx
      exact hne ⟨x, hx, by simpa using hfx⟩
    rw [takeWhile_append_singleton isShared q lr (Or.inr hex)] at hmem
    obtain ⟨x, hx, hxt⟩ := List.mem_map.mp hmem
    exact habs x ((List.takeWhile_sublist _).subset hx) hxt
  · intro hall
    have hfull : (q ++ [lr]).takeWhile isShared = q ++ [lr] := by
      rw [List.takeWhile_eq_self_iff]
      intro x hx
      rcases List.mem_append.mp hx with h | h
      · exact hall x h
      · rw [List.mem_singleton.mp h]; exact hp
    rw [hfull]
    exact List.mem_map.mpr ⟨lr, by simp, rfl⟩

/-- C18: when `txn` has no request in the queue of `key` (whose requests are
SHARED or EXCLUSIVE), the answer of a lock request agrees with `Status` after
the call: `WriteLock(txn, key)` answers `true` exactly when `Status(key)` then
reports EXCLUSIVE with owners `[txn]`, and `ReadLock(txn, key)` answers `true`
exactly when `Status(key)` then reports SHARED with `txn` among the owners. -/
theorem C18_answer_agrees_with_status (s : LockManagerB) (txn : Txn) (key : Key)
    (habs : ∀ lr ∈ s.queue key, lr.txn_ ≠ txn)
    (hnu : ∀ lr ∈ s.queue key, lr.mode_ ≠ UNLOCKED) :
    ((WriteLock s txn key).1 = true ↔
      Status (WriteLock s txn key).2 key []
        = Except.ok (EXCLUSIVE, [txn], (WriteLock s txn key).2)) ∧
    ((ReadLock s txn key).1 = true ↔
      ∃ owners, Status (ReadLock s txn key).2 key []
          = Except.ok (SHARED, owners, (ReadLock s txn key).2) ∧ txn ∈ owners) := by
  have hwq : tableGet (WriteLock s txn key).2.lock_table_ key
      = some (s.queue key ++ [LockRequest.mk EXCLUSIVE txn]) := by
    simp [WriteLock_table]
  have hrq : tableGet (ReadLock s txn key).2.lock_table_ key
      = some (s.queue key ++ [LockRequest.mk SHARED txn]) := by
    simp [ReadLock_table]
  constructor
  · rw [WriteLock_fst]
    cases hq : s.queue key with
    | nil =>
      rw [hq] at hwq
      rw [Status_cons _ key _ _ hwq]
      simp
    | cons f rest =>
      rw [hq] at hwq habs
      rw [List.cons_append] at hwq
      rw [Status_cons _ key _ _ hwq]
      have hft : f.txn_ ≠ txn := habs f (List.mem_cons_self _ _)
      by_cases hm : f.mode_ = EXCLUSIVE
      · simp [hm, hft]
      · simp [hm]
  · rw [ReadLock_fst_absent s txn key habs]
    cases hq : s.queue key with
    | nil =>
      rw [hq] at hrq
      rw [Status_cons _ key _ _ hrq]
      simp [isShared]
    | cons f rest =>
      rw [hq] at hrq habs hnu
      have hrq' := hrq
      rw [List.cons_append] at hrq'
      rw [Status_cons _ key _ _ hrq']
      by_cases hm : f.mode_ = EXCLUSIVE
      · simp only [hm, if_true]
        constructor
        · intro hall
          exact absurd hm (hall f (List.mem_cons_self _ _))
        · rintro ⟨owners, ho, _⟩
          simp at ho
      · simp only [hm, if_false]
        have hkey := mem_takeWhile_append_new (f :: rest) (LockRequest.mk SHARED txn)
          (by simp [isShared]) habs
        simp only [List.cons_append] at hkey
        constructor
        · intro hall
          refine ⟨_, rfl, hkey.mpr ?_⟩
          intro x hx
          rcases mode_cases x (hnu x hx) with h | h
          · simp [isShared, h]
          · exact absurd h (hall x hx)
        · rintro ⟨owners, ho, hmem⟩
          simp only [Except.ok.injEq, Prod.mk.injEq, true_and, and_true] at ho
          rw [← ho] at hmem
          intro x hx hxe
          have := hkey.mp hmem x hx
          simp [isShared, hxe] at this

/-- C18 at a concrete run: behind `[SHARED(1)]` a read request of `2` is
granted and `Status` reports `2` among the SHARED owners. -/
theorem C18_answer_agrees_with_status_witness :
    (ReadLock (ReadLock (LockManagerB.fresh []) 1 0).2 2 0).1 = true ∧
    ∃ owners, Status (ReadLock (ReadLock (LockManagerB.fresh []) 1 0).2 2 0).2 0 []
        = Except.ok (SHARED, owners, (ReadLock (ReadLock (LockManagerB.fresh []) 1 0).2 2 0).2) ∧
      2 ∈ owners :=
  ⟨by decide,
    (C18_answer_agrees_with_status (ReadLock (LockManagerB.fresh []) 1 0).2 2 0
      (by decide) (by decide)).2.mp (by decide)⟩

/-- Every state the three operations produce from a fresh manager holds only
SHARED and EXCLUSIVE requests. -/
theorem reachable_noUnlocked (s : LockManagerB) (h : Reachable s) : NoUnlocked s := by
  induction h with
  | fresh ready => exact noUnlocked_fresh ready
  | readLock s t k _ ih => exact noUnlocked_readLock s t k ih
  | writeLock s t k _ ih => exact noUnlocked_writeLock s t k ih
  | release s s' t k _ _ hrel ih => exact noUnlocked_release s s' t k ih hrel

theorem grantOne_added_eq (st : (Txn → Option Int) × List Txn) (t : Txn) :
    ∃ added, (grantOne st t).2 = st.2 ++ added ∧ ∀ b ∈ added, b = t := by
  rw [grantOne_ready]
  by_cases hz : (st.1 t).getD 0 - 1 = 0
  · exact ⟨[t], by simp [hz], by simp⟩
  · exact ⟨[], by simp [hz], by simp⟩

/-- Started on a SHARED head, the turn-over loop readies only holders of the
leading SHARED run. -/
theorem turnOver_false_added (l : Queue) (st : (Txn → Option Int) × List Txn)
    (hnu : ∀ x ∈ l, x.mode_ ≠ UNLOCKED) :
    ∃ added, (turnOver false l st).2 = st.2 ++ added ∧
      ∀ b ∈ added, b ∈ (l.takeWhile isShared).map (fun x => x.txn_) := by
  induction l generalizing st with
  | nil => exact ⟨[], by simp [turnOver], by simp⟩
  | cons f rest ih =>
    have hrest : ∀ x ∈ rest, x.mode_ ≠ UNLOCKED := fun x hx => hnu x (List.mem_cons_of_mem _ hx)
    rcases mode_cases f (hnu f (List.mem_cons_self _ _)) with hm | hm
    · have hs : isShared f = true := by simp [isShared, hm]
      obtain ⟨a1, h1, m1⟩ := grantOne_added_eq st f.txn_
      obtain ⟨a2, h2, m2⟩ := ih (grantOne st f.txn_) hrest
      refine ⟨a1 ++ a2, ?_, ?_⟩
      · rw [turnOver_false_shared f rest st hm, h2, h1, List.append_assoc]
      · intro b hb
        simp only [List.takeWhile_cons, hs, if_true, List.map_cons, List.mem_cons]
        rcases List.mem_append.mp hb with h | h
        · exact Or.inl (m1 b h)
        · exact Or.inr (m2 b h)
    · exact ⟨[], by rw [turnOver_false_exclusive f rest st hm]; simp, by simp⟩

/-- C19: a `Release(txn, key)` of a transaction with a request in the queue of
`key` (whose requests are SHARED or EXCLUSIVE) returns, and every transaction
it appends to the ready deque is, after the call, among the owners that
`Status(key)` reports. -/
theorem C19_readied_are_owners (s : LockManagerB) (txn : Txn) (key : Key)
    (hreq : ∃ lr ∈ s.queue key, lr.txn_ = txn)
    (hnu : ∀ lr ∈ s.queue key, lr.mode_ ≠ UNLOCKED) :
    ∃ s' added, Release s txn key = Except.ok s' ∧
      s'.ready_txns_ = s.ready_txns_ ++ added ∧
      ∀ b ∈ added, b ∈ holders s' key := by
  obtain ⟨hq, hi⟩ := request_present s txn key hreq
  obtain ⟨s', hrel, _, hst⟩ := Release_ok s txn key _ hq hi
  have hq' : s'.queue key = (s.queue key).eraseIdx (findTxn txn (s.queue key)) := by
    rw [Release_queue s s' txn key key hrel]; simp
  have hnu' : ∀ x ∈ (s.queue key).eraseIdx (findTxn txn (s.queue key)),
      x.mode_ ≠ UNLOCKED := fun x hx => hnu x (List.mem_of_mem_eraseIdx hx)
  have hr := congrArg Prod.snd hst
  simp only [] at hr
  refine ⟨s', ?_⟩
  rw [holders_eq, hq', hr]
  by_cases hp : passLock (s.queue key) (findTxn txn (s.queue key)) = true
  · simp only [hp, if_true]
    cases hl : (s.queue key).eraseIdx (findTxn txn (s.queue key)) with
    | nil => exact ⟨[], hrel, by simp [turnOver], by simp⟩
    | cons f rest =>
      rw [hl] at hnu'
      rcases mode_cases f (hnu' f (List.mem_cons_self _ _)) with hm | hm
      · have hfe : frontExclusive (f :: rest) = false := by simp [frontExclusive, hm]
        have hfx : ¬ f.mode_ = EXCLUSIVE := by rw [hm]; decide
        obtain ⟨added, h1, h2⟩ := turnOver_false_added (f :: rest)
          (eraseWait s.txn_waits_ txn, s.ready_txns_) hnu'
        refine ⟨added, hrel, by rw [hfe]; exact h1, ?_⟩
        simp only [hfx, if_false]
        exact h2
      · have hfe : frontExclusive (f :: rest) = true := by simp [frontExclusive, hm]
        obtain ⟨added, h1, h2⟩ := grantOne_added_eq
          (eraseWait s.txn_waits_ txn, s.ready_txns_) f.txn_
        refine ⟨added, hrel, ?_, ?_⟩
        · rw [hfe, turnOver_true_exclusive f rest _ hm]; exact h1
        · simp only [hm, if_true, List.mem_singleton]
          exact h2
  · simp only [hp, if_false]
    exact ⟨[], hrel, by simp, by simp⟩

/-- C19 on the queue `[EXCLUSIVE(1), SHARED(2), SHARED(3), EXCLUSIVE(4)]`: the
release of `1` returns and what it appends is owned afterwards. -/
theorem C19_readied_are_owners_witness :
    ∃ s' added,
      Release (WriteLock (ReadLock (ReadLock
        (WriteLock (LockManagerB.fresh []) 1 0).2 2 0).2 3 0).2 4 0).2 1 0 = Except.ok s' ∧
      s'.ready_txns_ = [] ++ added ∧ ∀ b ∈ added, b ∈ holders s' 0 :=
  C19_readied_are_owners
    (WriteLock (ReadLock (ReadLock (WriteLock (LockManagerB.fresh []) 1 0).2 2 0).2 3 0).2 4 0).2
    1 0 (by decide) (by decide)

/-! ## Disciplined use -/

theorem disciplined_held (s : LockManagerB) (h : Disciplined s) : ReachableHeld s := by
  induction h with
  | fresh ready => exact ReachableHeld.fresh ready
  | readLock s t k _ habs ih => exact ReachableHeld.readLock s t k ih habs
  | writeLock s t k _ _ ih => exact ReachableHeld.writeLock s t k ih
  | release s s' t k _ hreq hnone hrel ih =>
    exact ReachableHeld.release s s' t k ih hreq
      (by simp [LockManagerB.waitCount, hnone]) hrel

theorem bumpWait_nonzero (w : Txn → Option Int) (t : Txn)
    (h : ∀ u, w u ≠ some 0) (hge : 0 ≤ (w t).getD 0) (u : Txn) :
    bumpWait w t u ≠ some 0 := by
  by_cases hu : u = t
  · subst hu
    rw [bumpWait_self]
    intro he
    simp only [Option.some.injEq] at he
    omega
  · rw [bumpWait_other _ _ _ hu]
    exact h u

theorem grantOne_nonzero (st : (Txn → Option Int) × List Txn) (t : Txn)
    (h : ∀ u, st.1 u ≠ some 0) (u : Txn) : (grantOne st t).1 u ≠ some 0 := by
  rw [grantOne_waits]
  by_cases hu : u = t
  · simp only [hu, if_true]
    by_cases hz : (st.1 t).getD 0 - 1 = 0
    · simp [hz]
    · simp only [hz, if_false]
      intro he
      simp only [Option.some.injEq] at he
      exact hz he
  · simp only [hu, if_false]
    exact h u

theorem turnOver_nonzero (e : Bool) (l : Queue) (st : (Txn → Option Int) × List Txn)
    (h : ∀ u, st.1 u ≠ some 0) (u : Txn) : (turnOver e l st).1 u ≠ some 0 := by
  induction l generalizing st with
  | nil => simpa [turnOver] using h u
  | cons lr rest ih =>
    rcases turnOver_cons_cases e lr rest st with hc | hc | hc | hc
    · rw [hc]; exact h u
    · rw [hc]; exact grantOne_nonzero st lr.txn_ h u
    · rw [hc]; exact ih _ (grantOne_nonzero st lr.txn_ h)
    · rw [hc]; exact ih st h

/-- In disciplined runs the ledger never stores a zero. -/
theorem held_nonzero (s : LockManagerB) (h : ReachableHeld s) :
    ∀ u, s.txn_waits_ u ≠ some 0 := by
  induction h with
  | fresh ready => intro u; simp [LockManagerB.fresh]
  | readLock s t k hs _ ih =>
    intro u
    rw [ReadLock_waits]
    by_cases hr : (ReadLock s t k).1 = true
    · simp only [hr, if_true]; exact ih u
    · simp only [hr, if_false]
      refine bumpWait_nonzero _ _ ih ?_ u
      have := (held_invariant s hs).2 t
      unfold LockManagerB.waitCount at this
      omega
  | writeLock s t k hs ih =>
    intro u
    rw [WriteLock_waits]
    by_cases hr : (WriteLock s t k).1 = true
    · simp only [hr, if_true]; exact ih u
    · simp only [hr, if_false]
      refine bumpWait_nonzero _ _ ih ?_ u
      have := (held_invariant s hs).2 t
      unfold LockManagerB.waitCount at this
      omega
  | release s s' t k _ _ _ hrel ih =>
    intro u
    obtain ⟨locks, hq, hi⟩ := Release_ok_inv s s' t k hrel
    obtain ⟨s2, h2, _, hst⟩ := Release_ok s t k locks hq hi
    rw [hrel] at h2
    cases h2
    have hw := congrArg Prod.fst hst
    simp only [] at hw
    rw [hw]
    have he : ∀ v, eraseWait s.txn_waits_ t v ≠ some 0 := by
      intro v
      rw [eraseWait_apply]
      by_cases hv : v = t
      · simp [hv]
      · simp only [hv, if_false]; exact ih v
    by_cases hp : passLock locks (findTxn t locks) = true
    · simp only [hp, if_true]
      exact turnOver_nonzero _ _ _ he u
    · simp only [hp, if_false]
      exact he u

theorem grantOne_count_le (st : (Txn → Option Int) × List Txn) (t u : Txn) :
    ((grantOne st t).1 u).getD 0 ≤ (st.1 u).getD 0 := by
  rw [grantOne_count]
  by_cases hu : u = t
  · simp [hu]
  · simp [hu]

theorem turnOver_count_le (e : Bool) (l : Queue) (st : (Txn → Option Int) × List Txn)
    (u : Txn) : ((turnOver e l st).1 u).getD 0 ≤ (st.1 u).getD 0 := by
  induction l generalizing st with
  | nil => simp [turnOver]
  | cons lr rest ih =>
    rcases turnOver_cons_cases e lr rest st with hc | hc | hc | hc
    · rw [hc]
    · rw [hc]; exact grantOne_count_le st lr.txn_ u
    · rw [hc]; exact le_trans (ih _) (grantOne_count_le st lr.txn_ u)
    · rw [hc]; exact ih st

theorem grantOne_added_zero (st : (Txn → Option Int) × List Txn) (t : Txn) :
    ∃ added, (grantOne st t).2 = st.2 ++ added ∧
      ∀ b ∈ added, ((grantOne st t).1 b).getD 0 = 0 := by
  by_cases hz : (st.1 t).getD 0 - 1 = 0
  · refine ⟨[t], by rw [grantOne_ready]; simp [hz], ?_⟩
    intro b hb
    rw [List.mem_singleton.mp hb, grantOne_waits]
    simp [hz]
  · exact ⟨[], by rw [grantOne_ready]; simp [hz], by simp⟩

/-- Whoever the turn-over loop readies ends the loop with a wait count that is
not positive. -/
theorem turnOver_added_nonpos (e : Bool) (l : Queue) (st : (Txn → Option Int) × List Txn) :
    ∃ added, (turnOver e l st).2 = st.2 ++ added ∧
      ∀ b ∈ added, ((turnOver e l st).1 b).getD 0 ≤ 0 := by
  induction l generalizing st with
  | nil => exact ⟨[], by simp [turnOver], by simp⟩
  | cons lr rest ih =>
    rcases turnOver_cons_cases e lr rest st with hc | hc | hc | hc
    · exact ⟨[], by rw [hc]; simp, by simp⟩
    · obtain ⟨a, h1, h2⟩ := grantOne_added_zero st lr.txn_
      exact ⟨a, by rw [hc]; exact h1, fun b hb => by rw [hc]; exact le_of_eq (h2 b hb)⟩
    · obtain ⟨a1, h1, m1⟩ := grantOne_added_zero st lr.txn_
      obtain ⟨a2, h2, m2⟩ := ih (grantOne st lr.txn_)
      refine ⟨a1 ++ a2, by rw [hc, h2, h1, List.append_assoc], ?_⟩
      intro b hb
      rw [hc]
      rcases List.mem_append.mp hb with h | h
      · exact le_trans (turnOver_count_le e rest _ b) (le_of_eq (m1 b h))
      · exact m2 b h
    · obtain ⟨a, h1, h2⟩ := ih st
      exact ⟨a, by rw [hc]; exact h1, fun b hb => by rw [hc]; exact h2 b hb⟩

/-- A release allowed in a disciplined run returns, and whoever it readies has
no request left behind a granted part. -/
theorem held_release_readies_granted (s : LockManagerB) (h : ReachableHeld s)
    (t : Txn) (k : Key) (hreq : ∃ lr ∈ s.queue k, lr.txn_ = t)
    (hzero : s.waitCount t = 0) :
    ∃ s' added, Release s t k = Except.ok s' ∧
      s'.ready_txns_ = s.ready_txns_ ++ added ∧
      ∀ b ∈ added, totalBehind b s'.lock_table_ = 0 := by
  obtain ⟨hq, hi⟩ := request_present s t k hreq
  obtain ⟨s', hrel, _, hst⟩ := Release_ok s t k _ hq hi
  obtain ⟨hnu, hinv⟩ := held_invariant s h
  have hinv' := ledger_release s s' t k hinv hnu hzero hrel
  have hw := congrArg Prod.fst hst
  have hr := congrArg Prod.snd hst
  simp only [] at hw hr
  by_cases hp : passLock (s.queue k) (findTxn t (s.queue k)) = true
  · simp only [hp, if_true] at hw hr
    obtain ⟨added, h1, h2⟩ := turnOver_added_nonpos
      (frontExclusive ((s.queue k).eraseIdx (findTxn t (s.queue k))))
      ((s.queue k).eraseIdx (findTxn t (s.queue k)))
      (eraseWait s.txn_waits_ t, s.ready_txns_)
    refine ⟨s', added, hrel, by rw [hr]; exact h1, ?_⟩
    intro b hb
    have hle := h2 b hb
    rw [← hw] at hle
    have hb' := hinv' b
    unfold LockManagerB.waitCount at hb'
    omega
  · simp only [hp, if_false] at hr
    exact ⟨s', [], hrel, by rw [hr]; simp, by simp⟩

/-- C17: under disciplined use (lock requests only by a transaction with no
request in the queue of the key, releases only by a transaction with a request
in the queue and no ledger entry) every reachable state has each wait count
(`0` without entry) equal to the number of the transaction's requests behind the
granted parts of their queues, every ledger value at least `1`, and every
allowed release returns and readies only transactions that at that moment have
all their requests inside granted parts. -/
theorem C17_disciplined_ledger (s : LockManagerB) (h : Disciplined s) :
    (∀ t, s.waitCount t = (totalBehind t s.lock_table_ : Int)) ∧
    (∀ t c, s.txn_waits_ t = some c → 1 ≤ c) ∧
    (∀ t k, (∃ lr ∈ s.queue k, lr.txn_ = t) → s.txn_waits_ t = none →
      ∃ s' added, Release s t k = Except.ok s' ∧
        s'.ready_txns_ = s.ready_txns_ ++ added ∧
        ∀ b ∈ added, totalBehind b s'.lock_table_ = 0) := by
  have hheld := disciplined_held s h
  have hinv := (held_invariant s hheld).2
  refine ⟨hinv, ?_, ?_⟩
  · intro t c hc
    have h0 := held_nonzero s hheld t
    have ht := hinv t
    unfold LockManagerB.waitCount at ht
    rw [hc] at ht h0
    simp only [Option.getD_some] at ht
    have hne : c ≠ 0 := fun e => h0 (by rw [e])
    omega
  · intro t k hreq hnone
    exact held_release_readies_granted s hheld t k hreq
      (by simp [LockManagerB.waitCount, hnone])

/-- C17 at a concrete disciplined run: `1` then `2` write-lock key `0`; the
wait count of `2` is `1`, and the release of `1` returns. -/
theorem C17_disciplined_ledger_witness :
    (WriteLock (WriteLock (LockManagerB.fresh []) 1 0).2 2 0).2.waitCount 2
      = (totalBehind 2 (WriteLock (WriteLock (LockManagerB.fresh []) 1 0).2 2 0).2.lock_table_
          : Int) ∧
    ∃ s' added, Release (WriteLock (WriteLock (LockManagerB.fresh []) 1 0).2 2 0).2 1 0
        = Except.ok s' ∧
      s'.ready_txns_ = [] ++ added ∧ ∀ b ∈ added, totalBehind b s'.lock_table_ = 0 :=
  ⟨(C17_disciplined_ledger _
      (Disciplined.writeLock _ 2 0
        (Disciplined.writeLock _ 1 0 (Disciplined.fresh []) (by decide)) (by decide))).1 2,
   (C17_disciplined_ledger _
      (Disciplined.writeLock _ 2 0
        (Disciplined.writeLock _ 1 0 (Disciplined.fresh []) (by decide)) (by decide))).2.2
      1 0 (by decide) (by decide)⟩

end LockMgr
